import Mathlib

/-!
# cutils: the circular queue (`circular_queue.c`, `circular_queue.h`)

A shallow embedding of the linked-ring FIFO buffer and a verification of its
contract.

Modelling conventions.

* A pointer to a `circular_queue_element_t` is `Option Nat`: `none` is `NULL`,
  `some a` is the address `a`.  The elements live in `heap`, a list indexed by
  address; an entry `none` is a block that has been freed.  `malloc` of an
  element returns the first address past the end of the heap.
* An element's `value` block is modelled by its contents (a list of bytes of
  the allocated size), since the block is owned by exactly one element.
* Every function whose C execution would be undefined (a `NULL` or dangling
  dereference, a copy past the end of a block, an index past the end of a
  caller array) returns `none`.
* The outcome of the two `malloc` calls of `circular_queue_offer` is an
  argument (`Malloc`): whether each succeeds, and the indeterminate bytes of
  the fresh block.
* `int32_t` counters are `Int`: the code increments a counter only while it is
  below `capacity` and decrements `ecount` only while it is positive, so no
  counter wraps.  `size_t` lengths are `Nat` and the `ssize_t` result is `Int`,
  without wrap-around: the lengths a bucket call adds up are those of distinct
  blocks that exist in memory at the same time, and their sum is taken to fit
  `ssize_t`.
-/

namespace CircularQueue

/-- One `char` of a buffer. -/
abbrev Byte := Nat

/-- Pointer to an element: `none` is `NULL`. -/
abbrev Ptr := Option Nat

/-- The struct `_circular_queue_element_t`: the data block, the number of valid
bytes in it and the next element of the ring. -/
structure circular_queue_element_t where
  value : List Byte
  length : Nat
  next : Ptr
deriving DecidableEq

/-- State of the `pthread_mutex_t` embedded in the queue. -/
inductive mutex_t where
  | unlocked
  | locked
  | destroyed
deriving DecidableEq

/-- The struct `_circular_queue_t`, together with the memory (`heap`) that holds
the elements its pointers refer to. -/
structure circular_queue_t where
  capacity : Int
  elementsize : Nat
  storage : Ptr
  scount : Int
  ecount : Int
  front : Ptr
  rear : Ptr
  mutex : mutex_t
  heap : List (Option circular_queue_element_t)
deriving DecidableEq

def CIRCULAR_QUEUE_CAPACITY_DEFAULT : Int := 20

def CIRCULAR_QUEUE_ELEMENTSIZE_DEFAULT : Nat := 1024 * 40

def CIRCULAR_QUEUE_ERRNO_LESS_THAN_ELEMENTSIZE : Int := -1

def CIRCULAR_QUEUE_ERRNO_OUT_OF_MAMORY : Int := -2

/-- The element stored at address `a`, if that block is allocated. -/
def cell (heap : List (Option circular_queue_element_t)) (a : Nat) :
    Option circular_queue_element_t :=
  (heap[a]?).join

/-- Dereference of a pointer: undefined (`none`) for `NULL` and for a block that
is not allocated. -/
def load (heap : List (Option circular_queue_element_t)) (p : Ptr) :
    Option circular_queue_element_t :=
  p.bind (cell heap)

/-- Write of a whole element through a valid pointer. -/
def store (heap : List (Option circular_queue_element_t)) (a : Nat)
    (e : circular_queue_element_t) : List (Option circular_queue_element_t) :=
  heap.set a (some e)

/-- The call `memset(dst, c, n)`: undefined when `dst` has fewer than `n` bytes. -/
def memset (dst : List Byte) (c : Byte) (n : Nat) : Option (List Byte) :=
  if n ≤ dst.length then some (List.replicate n c ++ dst.drop n) else none

/-- The call `memcpy(dst, src, n)`: undefined when either block has fewer than
`n` bytes. -/
def memcpy (dst src : List Byte) (n : Nat) : Option (List Byte) :=
  if n ≤ dst.length ∧ n ≤ src.length then some (src.take n ++ dst.drop n) else none

/-- Outcome of the two `malloc` calls of one `circular_queue_offer`: `space` is
`none` when `malloc(elementsize)` returns `NULL` and otherwise gives the
indeterminate contents of the fresh block; `element` tells whether the `malloc`
of the element struct succeeds. -/
structure Malloc where
  space : Option (Nat → Byte)
  element : Bool

/-- A fresh block of `n` bytes with contents `junk`. -/
def freshBlock (junk : Nat → Byte) (n : Nat) : List Byte :=
  (List.range n).map junk

def circular_queue_init (queue : circular_queue_t) : Int × circular_queue_t :=
  (0, { queue with
        capacity := CIRCULAR_QUEUE_CAPACITY_DEFAULT
        elementsize := CIRCULAR_QUEUE_ELEMENTSIZE_DEFAULT
        storage := none
        scount := 0
        ecount := 0
        front := none
        rear := none
        mutex := mutex_t.unlocked })

def circular_queue_setcapacity (queue : circular_queue_t) (capacity : Int) :
    Int × circular_queue_t :=
  (0, { queue with capacity := capacity })

def circular_queue_setelementsize (queue : circular_queue_t) (elementsize : Nat) :
    Int × circular_queue_t :=
  (0, { queue with elementsize := elementsize })

/-- The function `circular_queue_offer`.  The result is the returned `int` and
the queue after the call.  In the reuse and overwrite branches the pointer
`queue->rear->next` is read once: the three statements that use it write no
`next` field and not `rear` before the last of them. -/
def circular_queue_offer (m : Malloc) (queue : circular_queue_t) (value : List Byte)
    (length : Nat) : Option (Int × circular_queue_t) :=
  if queue.elementsize < length then
    some (CIRCULAR_QUEUE_ERRNO_LESS_THAN_ELEMENTSIZE, queue)
  else if length ≤ 0 then
    some (0, queue)
  else if queue.ecount < queue.scount then do
    let r ← load queue.heap queue.rear
    let p ← r.next
    let n ← cell queue.heap p
    let v ← memcpy n.value value length
    let heap1 := store queue.heap p { n with value := v, length := length }
    let q1 := { queue with heap := heap1, rear := some p }
    let front1 := if queue.ecount = 0 then q1.rear else q1.front
    some (0, { q1 with front := front1, ecount := queue.ecount + 1 })
  else if queue.ecount < queue.capacity then
    match m.space with
    | none => some (CIRCULAR_QUEUE_ERRNO_OUT_OF_MAMORY, queue)
    | some junk => do
      let space ← memcpy (freshBlock junk queue.elementsize) value length
      if m.element = false then
        some (CIRCULAR_QUEUE_ERRNO_OUT_OF_MAMORY, queue)
      else
        let a := queue.heap.length
        if queue.ecount = 0 then
          let element : circular_queue_element_t :=
            { value := space, length := length, next := some a }
          some (0, { queue with
                      heap := queue.heap ++ [some element]
                      storage := some a
                      front := some a
                      rear := some a
                      ecount := queue.ecount + 1
                      scount := queue.scount + 1 })
        else do
          let ra ← queue.rear
          let r ← cell queue.heap ra
          let element : circular_queue_element_t :=
            { value := space, length := length, next := r.next }
          let heap1 := store queue.heap ra { r with next := some a }
          some (0, { queue with
                      heap := heap1 ++ [some element]
                      rear := some a
                      ecount := queue.ecount + 1
                      scount := queue.scount + 1 })
  else do
    let r ← load queue.heap queue.rear
    let p ← r.next
    let n ← cell queue.heap p
    let v ← memcpy n.value value length
    let heap1 := store queue.heap p { n with value := v, length := length }
    let f ← load heap1 queue.front
    some (0, { queue with heap := heap1, rear := some p, front := f.next })

/-- The statement `if (asize) { asize[i] = v; }`: nothing is written through a
`NULL` pointer, and the write is undefined past the end of the caller array. -/
def writeAsize (asize : Option (List Nat)) (i v : Nat) : Option (Option (List Nat)) :=
  match asize with
  | none => some none
  | some a => if i < a.length then some (some (a.set i v)) else none

/-- The variables of the loop of `circular_queue_bucket`. -/
structure BucketLoop where
  queue : circular_queue_t
  buffer : List (List Byte)
  asize : Option (List Nat)
  tsize : Nat

/-- The loop `for (int i = 0; i < mcount; i++)` of `circular_queue_bucket`, by
recursion on the number `n` of iterations still to run, `i` being the loop
index. -/
def bucketLoop (size : Nat) : Nat → Nat → BucketLoop → Option BucketLoop
  | 0, _, s => some s
  | n + 1, i, s => do
    let b ← s.buffer[i]?
    let b1 ← memset b 0 size
    let f ← load s.queue.heap s.queue.front
    let b2 ← memcpy b1 f.value f.length
    let asize1 ← writeAsize s.asize i f.length
    bucketLoop size n (i + 1)
      { queue := { s.queue with front := f.next, ecount := s.queue.ecount - 1 }
        buffer := s.buffer.set i b2
        asize := asize1
        tsize := s.tsize + f.length }

/-- What `circular_queue_bucket` leaves behind: the returned `ssize_t`, the
queue, the caller's destination buffers and the two out-parameters (`none` for
a `NULL` pointer). -/
structure BucketResult where
  ret : Int
  queue : circular_queue_t
  buffer : List (List Byte)
  acount : Option Int
  asize : Option (List Nat)
deriving DecidableEq

/-- The function `circular_queue_bucket`.  `buffer` is the caller's array of
destination buffers, `acount` and `asize` the current contents of the
out-parameters, `none` when the pointer passed is `NULL`. -/
def circular_queue_bucket (queue : circular_queue_t) (buffer : List (List Byte))
    (count : Int) (size : Nat) (acount : Option Int) (asize : Option (List Nat)) :
    Option BucketResult :=
  if size < queue.elementsize then
    some { ret := CIRCULAR_QUEUE_ERRNO_LESS_THAN_ELEMENTSIZE, queue := queue,
           buffer := buffer, acount := acount, asize := asize }
  else if queue.ecount ≤ 0 then
    some { ret := 0, queue := queue, buffer := buffer, acount := acount, asize := asize }
  else
    let mcount : Int := if count < queue.ecount then count else queue.ecount
    (bucketLoop size mcount.toNat 0
        { queue := queue, buffer := buffer, asize := asize, tsize := 0 }).map
      fun s =>
        { ret := (s.tsize : Int), queue := s.queue, buffer := s.buffer,
          acount := acount.map (fun _ => mcount), asize := s.asize }

/-- What `circular_queue_poll` leaves behind. -/
structure PollResult where
  ret : Int
  queue : circular_queue_t
  buffer : List Byte
deriving DecidableEq

/-- The function `circular_queue_poll`: a bucket call on the one-entry array
`&buffer` with count 1 and both out-parameters `NULL`. -/
def circular_queue_poll (queue : circular_queue_t) (buffer : List Byte) (size : Nat) :
    Option PollResult :=
  (circular_queue_bucket queue [buffer] 1 size none none).map
    fun r => { ret := r.ret, queue := r.queue, buffer := r.buffer.headD buffer }

/-- The function `circular_queue_lock`: returns only when the mutex is free. -/
def circular_queue_lock (queue : circular_queue_t) : Option (Int × circular_queue_t) :=
  match queue.mutex with
  | mutex_t.unlocked => some (0, { queue with mutex := mutex_t.locked })
  | _ => none

/-- The function `circular_queue_unlock`: defined for a held mutex. -/
def circular_queue_unlock (queue : circular_queue_t) : Option (Int × circular_queue_t) :=
  match queue.mutex with
  | mutex_t.locked => some (0, { queue with mutex := mutex_t.unlocked })
  | _ => none

/-- The loop `while (queue->scount > 0)` of `circular_queue_destroy`, by
recursion on the number of iterations still to run. -/
def destroyLoop : Nat → circular_queue_t → Option circular_queue_t
  | 0, q => some q
  | n + 1, q => do
    let element ← q.storage
    let e ← cell q.heap element
    destroyLoop n { q with
                    storage := e.next
                    heap := q.heap.set element none
                    scount := q.scount - 1 }

/-- The function `circular_queue_destroy`. -/
def circular_queue_destroy (queue : circular_queue_t) : Option (Int × circular_queue_t) :=
  (destroyLoop queue.scount.toNat queue).map fun q =>
    (0, { q with
          ecount := 0
          storage := none
          front := none
          rear := none
          elementsize := 0
          capacity := 0
          mutex := mutex_t.destroyed })

/-! ## Reading the ring -/

/-- The `next` pointer stored at address `a` (`NULL` when the block is not
allocated). -/
def nextOf (heap : List (Option circular_queue_element_t)) (a : Nat) : Ptr :=
  (cell heap a).bind fun e => e.next

/-- The addresses visited from `p` by following `next` for at most `n` steps. -/
def walk (heap : List (Option circular_queue_element_t)) : Nat → Ptr → List Nat
  | 0, _ => []
  | _ + 1, none => []
  | n + 1, some a => a :: walk heap n (nextOf heap a)

/-- The valid bytes of the element at address `a`: the first `length` bytes of
its block. -/
def bytesAt (heap : List (Option circular_queue_element_t)) (a : Nat) : List Byte :=
  match cell heap a with
  | some e => e.value.take e.length
  | none => []

/-- The slots that hold the live elements, oldest first: the `ecount` slots from
`front`. -/
def liveSlots (q : circular_queue_t) : List Nat :=
  walk q.heap q.ecount.toNat q.front

/-- The queued elements, oldest first: the bytes read from `front` by following
`next` for `ecount` steps. -/
def contents (q : circular_queue_t) : List (List Byte) :=
  (liveSlots q).map (bytesAt q.heap)

/-- The state of a destination buffer of `size` bytes after an element `v` has
been copied into it: `v` followed by zero bytes. -/
def pad (size : Nat) (v : List Byte) : List Byte :=
  v ++ List.replicate (size - v.length) 0

/-! ## Call sequences -/

/-- A queue after `circular_queue_init` and any number of
`circular_queue_setcapacity` (with a capacity of at least 1) and
`circular_queue_setelementsize` calls, before any insertion. -/
inductive Configured : circular_queue_t → Prop where
  | init (q0 : circular_queue_t) : Configured (circular_queue_init q0).2
  | setcapacity {q : circular_queue_t} (c : Int) :
      Configured q → 1 ≤ c → Configured (circular_queue_setcapacity q c).2
  | setelementsize {q : circular_queue_t} (s : Nat) :
      Configured q → Configured (circular_queue_setelementsize q s).2

/-- The queues reachable from a configured queue by calls of offer, poll,
bucket, lock and unlock that return. -/
inductive Reachable : circular_queue_t → Prop where
  | configured {q : circular_queue_t} : Configured q → Reachable q
  | offer {q : circular_queue_t} (m : Malloc) (value : List Byte) (length : Nat)
      (r : Int × circular_queue_t) :
      Reachable q → circular_queue_offer m q value length = some r → Reachable r.2
  | poll {q : circular_queue_t} (buffer : List Byte) (size : Nat) (r : PollResult) :
      Reachable q → circular_queue_poll q buffer size = some r → Reachable r.queue
  | bucket {q : circular_queue_t} (buffer : List (List Byte)) (count : Int) (size : Nat)
      (acount : Option Int) (asize : Option (List Nat)) (r : BucketResult) :
      Reachable q → circular_queue_bucket q buffer count size acount asize = some r →
      Reachable r.queue
  | lock {q : circular_queue_t} (r : Int × circular_queue_t) :
      Reachable q → circular_queue_lock q = some r → Reachable r.2
  | unlock {q : circular_queue_t} (r : Int × circular_queue_t) :
      Reachable q → circular_queue_unlock q = some r → Reachable r.2

/-- Offer the elements of a list in order, each with its own allocator outcome
and with its full length; the result is the list of returned codes and the
final queue. -/
def offerAll : circular_queue_t → List (Malloc × List Byte) →
    Option (List Int × circular_queue_t)
  | q, [] => some ([], q)
  | q, mv :: rest => do
    let r ← circular_queue_offer mv.1 q mv.2 mv.2.length
    let rs ← offerAll r.2 rest
    some (r.1 :: rs.1, rs.2)

/-- Poll once into each destination buffer of a list in order, passing the
buffer's own length as its capacity; the result is the list of returned values
with the destination contents, and the final queue. -/
def pollAll : circular_queue_t → List (List Byte) →
    Option (List (Int × List Byte) × circular_queue_t)
  | q, [] => some ([], q)
  | q, d :: ds => do
    let r ← circular_queue_poll q d d.length
    let rs ← pollAll r.queue ds
    some ((r.ret, r.buffer) :: rs.1, rs.2)

/-! ## The representation invariant -/

/-- A chain of `next` links: starting from the pointer `p`, the slots `xs` are
visited in order and the link out of the last one is `q`. -/
def Path (nx : Nat → Ptr) : Ptr → List Nat → Ptr → Prop
  | p, [], q => p = q
  | p, x :: xs, q => p = some x ∧ Path nx (nx x) xs q

/-- The ring invariant.  `live` lists the occupied slots from `front`, oldest
first, and `spare` the free slots that follow them; together they are the whole
ring, a cycle of distinct slots through `front`. -/
structure Inv (q : circular_queue_t) (live spare : List Nat) : Prop where
  nodup : (live ++ spare).Nodup
  path : Path (nextOf q.heap) q.front (live ++ spare) q.front
  rear : q.rear = (spare ++ live).getLast?
  ecount : q.ecount = (live.length : Int)
  scount : q.scount = ((live ++ spare).length : Int)
  cap : q.scount ≤ q.capacity
  cap_pos : 1 ≤ q.capacity
  empty : live ++ spare = [] → q.front = none ∧ q.storage = none
  storage : live ++ spare ≠ [] → ∃ s, q.storage = some s ∧ s ∈ live ++ spare
  slots : ∀ x ∈ live ++ spare, ∃ e, cell q.heap x = some e ∧ e.value.length = q.elementsize
  lens : ∀ x ∈ live, ∀ e, cell q.heap x = some e → 1 ≤ e.length ∧ e.length ≤ q.elementsize

/-- What the caller of `circular_queue_bucket` supplies: at least `count`
destination buffers, every one of `size` bytes, and room for `count` lengths
when `asize` is not `NULL`. -/
def DestOk (buffer : List (List Byte)) (count : Int) (size : Nat)
    (asize : Option (List Nat)) : Prop :=
  count.toNat ≤ buffer.length ∧ (∀ b ∈ buffer, b.length = size) ∧
    ∀ a, asize = some a → count.toNat ≤ a.length

/-! ## Concrete queues -/

/-- A queue struct before `circular_queue_init`, in a memory without elements. -/
def blankQueue : circular_queue_t :=
  { capacity := 0, elementsize := 0, storage := none, scount := 0, ecount := 0,
    front := none, rear := none, mutex := mutex_t.destroyed, heap := [] }

/-- The queue of `circular_queue_test`: capacity 5 and element size 20. -/
def testQueue : circular_queue_t :=
  (circular_queue_setelementsize
    (circular_queue_setcapacity (circular_queue_init blankQueue).2 5).2 20).2

/-- A queue of capacity 2 and element size 3. -/
def smallQueue : circular_queue_t :=
  (circular_queue_setelementsize
    (circular_queue_setcapacity (circular_queue_init blankQueue).2 2).2 3).2

/-- An allocator outcome where both `malloc` calls succeed; the fresh block
holds the byte 170 everywhere. -/
def mallocOk : Malloc :=
  { space := some fun _ => 170, element := true }

/-- An allocator outcome where `malloc` returns `NULL`. -/
def mallocFail : Malloc :=
  { space := none, element := false }

/-- The queue after offering `v` with its full length when the allocations
succeed (the queue itself should the call be undefined). -/
def afterOffer (q : circular_queue_t) (v : List Byte) : circular_queue_t :=
  match circular_queue_offer mallocOk q v v.length with
  | some r => r.2
  | none => q

/-- The test queue holding three elements, offered in this order. -/
def threeQueue : circular_queue_t :=
  afterOffer (afterOffer (afterOffer testQueue [71, 0]) [68, 97, 0]) [69, 0, 118, 0]

/-! ## Further notions used by the statements -/

/-- The count invariant `0 ≤ ecount ≤ scount ≤ capacity`. -/
def CountInv (q : circular_queue_t) : Prop :=
  0 ≤ q.ecount ∧ q.ecount ≤ q.scount ∧ q.scount ≤ q.capacity

/-- A sequence of offer, poll and bucket calls that return, from the first queue
to the second. -/
inductive Steps : circular_queue_t → circular_queue_t → Prop where
  | refl (q : circular_queue_t) : Steps q q
  | offer {q q1 : circular_queue_t} (m : Malloc) (value : List Byte) (length : Nat)
      (r : Int × circular_queue_t) :
      Steps q q1 → circular_queue_offer m q1 value length = some r → Steps q r.2
  | poll {q q1 : circular_queue_t} (buffer : List Byte) (size : Nat) (r : PollResult) :
      Steps q q1 → circular_queue_poll q1 buffer size = some r → Steps q r.queue
  | bucket {q q1 : circular_queue_t} (buffer : List (List Byte)) (count : Int) (size : Nat)
      (acount : Option Int) (asize : Option (List Nat)) (r : BucketResult) :
      Steps q q1 → circular_queue_bucket q1 buffer count size acount asize = some r →
      Steps q r.queue

/-- The `length` field of the element at address `a` (0 when the block is not
allocated). -/
def lengthAt (heap : List (Option circular_queue_element_t)) (a : Nat) : Nat :=
  match cell heap a with
  | some e => e.length
  | none => 0

/-- The queued entries as pairs of bytes and recorded length, oldest first:
read from `front` by following `next` for `ecount` steps. -/
def entries (q : circular_queue_t) : List (List Byte × Nat) :=
  (liveSlots q).map fun a => (bytesAt q.heap a, lengthAt q.heap a)

/-- Insertion into the bounded FIFO list of the specification: the entry is
appended and the last `capacity` entries are kept. -/
def specOffer {α : Type} (capacity : Nat) (c : List α) (v : α) : List α :=
  (c ++ [v]).drop ((c ++ [v]).length - capacity)

/-- Bulk removal from the bounded FIFO list of the specification: the first
`min K |c|` entries are handed out and dropped from the list. -/
def specBucket {α : Type} (K : Nat) (c : List α) : List α × List α :=
  (c.take (min K c.length), c.drop (min K c.length))

/-- The memory after the blocks at the addresses `xs` have been freed. -/
def freeAll (heap : List (Option circular_queue_element_t)) (xs : List Nat) :
    List (Option circular_queue_element_t) :=
  xs.foldl (fun h x => h.set x none) heap

/-- The test queue after three offers and a bucket call that drains it: no
element is queued and three slots are allocated. -/
def drainedQueue : circular_queue_t :=
  match circular_queue_bucket threeQueue
      [List.replicate 20 0, List.replicate 20 0, List.replicate 20 0] 3 20 none none with
  | some r => r.queue
  | none => threeQueue

/-- The small queue filled to its capacity of two elements. -/
def fullQueue : circular_queue_t :=
  afterOffer (afterOffer smallQueue [1]) [2, 0]

/-- The three-element test queue after `circular_queue_lock`. -/
def lockedQueue : circular_queue_t :=
  { threeQueue with mutex := mutex_t.locked }

/-! ## Memory lemmas -/

theorem cell_lt {heap : List (Option circular_queue_element_t)} {a : Nat}
    {e : circular_queue_element_t} (h : cell heap a = some e) : a < heap.length := by
  unfold cell at h
  by_contra hlt
  rw [List.getElem?_eq_none (Nat.le_of_not_lt hlt)] at h
  simp at h

theorem cell_store_self {heap : List (Option circular_queue_element_t)} {a : Nat}
    (e : circular_queue_element_t) (h : a < heap.length) :
    cell (store heap a e) a = some e := by
  simp [cell, store, List.getElem?_set, h]

theorem cell_store_ne {heap : List (Option circular_queue_element_t)} {a b : Nat}
    (e : circular_queue_element_t) (h : a ≠ b) :
    cell (store heap a e) b = cell heap b := by
  simp [cell, store, List.getElem?_set, h]

theorem cell_append_old {heap : List (Option circular_queue_element_t)} {b : Nat}
    (x : Option circular_queue_element_t) (h : b < heap.length) :
    cell (heap ++ [x]) b = cell heap b := by
  simp [cell, List.getElem?_append_left h]

theorem cell_append_new (heap : List (Option circular_queue_element_t))
    (e : circular_queue_element_t) :
    cell (heap ++ [some e]) heap.length = some e := by
  simp [cell]

theorem store_length (heap : List (Option circular_queue_element_t)) (a : Nat)
    (e : circular_queue_element_t) : (store heap a e).length = heap.length := by
  simp [store]

/-! ## Chains of links -/

theorem Path_nil {nx : Nat → Ptr} {p q : Ptr} : Path nx p [] q ↔ p = q := Iff.rfl

theorem Path_cons {nx : Nat → Ptr} {x : Nat} {xs : List Nat} {p q : Ptr} :
    Path nx p (x :: xs) q ↔ p = some x ∧ Path nx (nx x) xs q := Iff.rfl

theorem Path_append {nx : Nat → Ptr} {xs ys : List Nat} {p q : Ptr} :
    Path nx p (xs ++ ys) q ↔ ∃ m, Path nx p xs m ∧ Path nx m ys q := by
  induction xs generalizing p with
  | nil => simp [Path_nil]
  | cons x xs ih =>
    rw [List.cons_append, Path_cons, ih]
    constructor
    · rintro ⟨h1, m, h2, h3⟩
      exact ⟨m, ⟨h1, h2⟩, h3⟩
    · rintro ⟨m, ⟨h1, h2⟩, h3⟩
      exact ⟨h1, m, h2, h3⟩

theorem Path_det {nx : Nat → Ptr} {xs : List Nat} {p a b : Ptr}
    (h1 : Path nx p xs a) (h2 : Path nx p xs b) : a = b := by
  induction xs generalizing p with
  | nil =>
    simp only [Path] at h1 h2
    rw [← h1, ← h2]
  | cons x xs ih => exact ih h1.2 h2.2

theorem Path_congr {nx nx2 : Nat → Ptr} {xs : List Nat} {p q : Ptr}
    (h : ∀ x ∈ xs, nx x = nx2 x) (hp : Path nx p xs q) : Path nx2 p xs q := by
  induction xs generalizing p with
  | nil => exact hp
  | cons x xs ih =>
    refine ⟨hp.1, ?_⟩
    rw [← h x (List.mem_cons_self x xs)]
    exact ih (fun y hy => h y (List.mem_cons_of_mem x hy)) hp.2

theorem Path_last {nx : Nat → Ptr} {xs : List Nat} {z : Nat} {p q : Ptr}
    (h : Path nx p (xs ++ [z]) q) : nx z = q := by
  obtain ⟨m, _, h2⟩ := Path_append.1 h
  exact h2.2

theorem Path_rotate {nx : Nat → Ptr} {xs ys : List Nat} {f p : Ptr}
    (h : Path nx f (xs ++ ys) f) (hx : Path nx f xs p) : Path nx p (ys ++ xs) p := by
  obtain ⟨m, h1, h2⟩ := Path_append.1 h
  have hm : m = p := Path_det h1 hx
  subst hm
  exact Path_append.2 ⟨f, h2, h1⟩

theorem Path_head {nx : Nat → Ptr} {x : Nat} {xs : List Nat} {p q : Ptr}
    (h : Path nx p (x :: xs) q) : p = some x := h.1

theorem walk_of_Path {heap : List (Option circular_queue_element_t)} {xs : List Nat}
    {p q : Ptr} (h : Path (nextOf heap) p xs q) : walk heap xs.length p = xs := by
  induction xs generalizing p with
  | nil => rfl
  | cons x xs ih =>
    obtain ⟨h1, h2⟩ := h
    subst h1
    simp [walk, ih h2]

theorem walk_append_of_Path {heap : List (Option circular_queue_element_t)}
    {xs ys : List Nat} {p q : Ptr} (h : Path (nextOf heap) p (xs ++ ys) q) :
    walk heap xs.length p = xs := by
  obtain ⟨m, h1, _⟩ := Path_append.1 h
  exact walk_of_Path h1

theorem Inv_of_Configured {q : circular_queue_t} (h : Configured q) :
    Inv q [] [] ∧ q.rear = none := by
  induction h with
  | init q0 =>
    refine ⟨⟨?_, ?_, ?_, ?_, ?_, ?_, ?_, ?_, ?_, ?_, ?_⟩, rfl⟩ <;>
      simp [circular_queue_init, Path_nil, CIRCULAR_QUEUE_CAPACITY_DEFAULT]
  | setcapacity c _ hc ih =>
    obtain ⟨ih, hr⟩ := ih
    refine ⟨⟨ih.nodup, ih.path, ih.rear, ih.ecount, ih.scount, ?_, hc, ih.empty, ih.storage,
      ih.slots, ih.lens⟩, hr⟩
    have := ih.scount
    simp only [circular_queue_setcapacity, List.append_nil, List.length_nil] at this ⊢
    rw [this]; simpa using (by omega : (0:Int) ≤ c)
  | setelementsize s _ ih =>
    obtain ⟨ih, hr⟩ := ih
    exact ⟨⟨ih.nodup, ih.path, ih.rear, ih.ecount, ih.scount, ih.cap, ih.cap_pos, ih.empty,
      ih.storage, by simp, by simp⟩, hr⟩

/-- In a cycle, the link out of the last slot leads to the first one. -/
theorem Path_cycle_last {nx : Nat → Ptr} {ys : List Nat} {p : Ptr} {w z : Nat}
    (h : Path nx p ys p) (hw : ys.head? = some w) (hz : ys.getLast? = some z) :
    nx z = some w := by
  have hp : p = some w := by
    cases ys with
    | nil => simp at hw
    | cons a as =>
      simp only [List.head?_cons, Option.some.injEq] at hw
      rw [← hw]; exact h.1
  rcases List.eq_nil_or_concat ys with h0 | ⟨L, b, hL⟩
  · subst h0; simp at hw
  · rw [List.concat_eq_append] at hL
    subst hL
    rw [List.getLast?_concat] at hz
    simp only [Option.some.injEq] at hz
    subst hz
    rw [Path_last h]; exact hp

theorem Inv.rear_next {q : circular_queue_t} {live spare : List Nat} (hI : Inv q live spare)
    {w : Nat} (hw : (spare ++ live).head? = some w) :
    ∃ z r, q.rear = some z ∧ cell q.heap z = some r ∧ r.next = some w ∧ z ∈ live ++ spare := by
  obtain ⟨m, h1, h2⟩ := Path_append.1 hI.path
  have hcyc : Path (nextOf q.heap) m (spare ++ live) m := Path_append.2 ⟨q.front, h2, h1⟩
  have hne : spare ++ live ≠ [] := by
    intro h0; rw [h0] at hw; simp at hw
  obtain ⟨z, hz⟩ : ∃ z, (spare ++ live).getLast? = some z := by
    cases hl : (spare ++ live).getLast? with
    | none => exact absurd (List.getLast?_eq_none_iff.1 hl) hne
    | some z => exact ⟨z, rfl⟩
  have hn := Path_cycle_last hcyc hw hz
  unfold nextOf at hn
  obtain ⟨r, hr, hrn⟩ := Option.bind_eq_some.1 hn
  refine ⟨z, r, hI.rear.trans hz, hr, hrn, ?_⟩
  have : z ∈ spare ++ live := List.mem_of_getLast?_eq_some hz
  simp only [List.mem_append] at this ⊢
  tauto

theorem memcpy_ok {dst src : List Byte} {n : Nat} (h1 : n ≤ dst.length)
    (h2 : n ≤ src.length) : memcpy dst src n = some (src.take n ++ dst.drop n) := by
  simp [memcpy, h1, h2]

theorem memcpy_length {dst src : List Byte} {n : Nat} (h1 : n ≤ dst.length)
    (h2 : n ≤ src.length) : (src.take n ++ dst.drop n).length = dst.length := by
  simp only [List.length_append, List.length_take, List.length_drop]
  omega

theorem memcpy_take {dst src : List Byte} {n : Nat} (h2 : n ≤ src.length) :
    (src.take n ++ dst.drop n).take n = src.take n := by
  apply List.take_left'
  simp only [List.length_take]
  omega

theorem nextOf_store {heap : List (Option circular_queue_element_t)} {a : Nat}
    {n e : circular_queue_element_t} (hn : cell heap a = some n) (he : e.next = n.next) :
    nextOf (store heap a e) = nextOf heap := by
  funext b
  unfold nextOf
  by_cases hab : a = b
  · subst hab
    rw [cell_store_self e (cell_lt hn), hn]
    simp [he]
  · rw [cell_store_ne e hab]

theorem bytesAt_congr {h1 h2 : List (Option circular_queue_element_t)} {a : Nat}
    (h : cell h1 a = cell h2 a) : bytesAt h1 a = bytesAt h2 a := by
  unfold bytesAt; rw [h]

theorem offer_reuse (m : Malloc) {q : circular_queue_t} {live sp : List Nat} {y : Nat}
    (hI : Inv q live (y :: sp)) {value : List Byte} {length : Nat} (h1 : 1 ≤ length)
    (h2 : length ≤ q.elementsize) (h3 : length ≤ value.length) :
    ∃ q2, circular_queue_offer m q value length = some (0, q2) ∧ Inv q2 (live ++ [y]) sp ∧
      bytesAt q2.heap y = value.take length ∧
      (∀ x, x ≠ y → cell q2.heap x = cell q.heap x) ∧
      q2.capacity = q.capacity ∧ q2.elementsize = q.elementsize ∧ q2.scount = q.scount ∧
      q2.mutex = q.mutex ∧ q2.storage = q.storage := by
  obtain ⟨z, r, hrear, hr, hrn, _⟩ := hI.rear_next (w := y) (by simp)
  obtain ⟨n, hn, hnl⟩ := hI.slots y (by simp)
  have hlt : q.ecount < q.scount := by
    rw [hI.ecount, hI.scount]; simp
  have hm : memcpy n.value value length = some (value.take length ++ n.value.drop length) :=
    memcpy_ok (by omega) h3
  have hylt := cell_lt hn
  have hnx : ∀ v : List Byte,
      nextOf (store q.heap y { n with value := v, length := length }) = nextOf q.heap :=
    fun v => nextOf_store hn rfl
  unfold circular_queue_offer
  rw [if_neg (not_lt.2 h2), if_neg (by omega), if_pos hlt]
  simp only [load, hrear, Option.bind_eq_bind, Option.some_bind, hr, hrn, hn, hm]
  have hfront : (if q.ecount = 0 then some y else q.front) = q.front := by
    split
    · rename_i h0
      have hl : live = [] := by
        have := hI.ecount
        rw [h0] at this
        exact List.length_eq_zero.1 (by omega)
      have hp := hI.path
      rw [hl] at hp
      exact hp.1.symm
    · rfl
  refine ⟨_, rfl, ?_, ?_, ?_, rfl, rfl, rfl, rfl, rfl⟩
  · constructor
    · simpa using hI.nodup
    · show Path (nextOf (store _ _ _)) (if q.ecount = 0 then some y else q.front) _
        (if q.ecount = 0 then some y else q.front)
      rw [hfront, hnx]
      simpa using hI.path
    · show some y = _
      rw [← List.append_assoc, List.getLast?_concat]
    · show q.ecount + 1 = _
      rw [hI.ecount]; simp
    · show q.scount = _
      rw [hI.scount]; simp
    · exact hI.cap
    · exact hI.cap_pos
    · intro h0; simp at h0
    · intro _
      obtain ⟨s, hs, hmem⟩ := hI.storage (by simp)
      exact ⟨s, hs, by simpa using hmem⟩
    · intro x hx
      show ∃ e, cell (store _ _ _) x = some e ∧ e.value.length = q.elementsize
      by_cases hxy : y = x
      · subst hxy
        rw [cell_store_self _ hylt]
        exact ⟨_, rfl, by rw [← hnl]; exact memcpy_length (by omega) h3⟩
      · rw [cell_store_ne _ hxy]
        exact hI.slots x (by simpa using hx)
    · intro x hx e
      show cell (store _ _ _) x = some e → 1 ≤ e.length ∧ e.length ≤ q.elementsize
      by_cases hxy : y = x
      · subst hxy
        rw [cell_store_self _ hylt]
        intro he
        simp only [Option.some.injEq] at he
        subst he
        exact ⟨h1, h2⟩
      · rw [cell_store_ne _ hxy]
        intro he
        have hx2 : x ∈ live := by
          rcases List.mem_append.1 hx with h | h
          · exact h
          · simp at h; exact absurd h.symm hxy
        exact hI.lens x hx2 e he
  · show bytesAt (store _ _ _) y = _
    unfold bytesAt
    rw [cell_store_self _ hylt]
    exact memcpy_take h3
  · intro x hx
    exact cell_store_ne _ (Ne.symm hx)

theorem freshBlock_length (junk : Nat → Byte) (n : Nat) : (freshBlock junk n).length = n := by
  simp [freshBlock]

theorem offer_overwrite (m : Malloc) {q : circular_queue_t} {x : Nat} {l : List Nat}
    (hI : Inv q (x :: l) []) (hfull : ¬ q.ecount < q.capacity) {value : List Byte}
    {length : Nat} (h1 : 1 ≤ length) (h2 : length ≤ q.elementsize)
    (h3 : length ≤ value.length) :
    ∃ q2, circular_queue_offer m q value length = some (0, q2) ∧ Inv q2 (l ++ [x]) [] ∧
      bytesAt q2.heap x = value.take length ∧
      (∀ a, a ≠ x → cell q2.heap a = cell q.heap a) ∧
      q2.capacity = q.capacity ∧ q2.elementsize = q.elementsize ∧ q2.scount = q.scount ∧
      q2.mutex = q.mutex ∧ q2.storage = q.storage ∧ q2.ecount = q.ecount := by
  obtain ⟨z, r, hrear, hr, hrn, _⟩ := hI.rear_next (w := x) (by simp)
  obtain ⟨n, hn, hnl⟩ := hI.slots x (by simp)
  have hnlt : ¬ q.ecount < q.scount := by
    rw [hI.ecount, hI.scount]; simp
  have hm : memcpy n.value value length = some (value.take length ++ n.value.drop length) :=
    memcpy_ok (by omega) h3
  have hxlt := cell_lt hn
  have hnx : ∀ v : List Byte,
      nextOf (store q.heap x { n with value := v, length := length }) = nextOf q.heap :=
    fun v => nextOf_store hn rfl
  have hfront : q.front = some x := by
    have hp := hI.path
    exact hp.1
  have hnxx : nextOf q.heap x = n.next := by
    unfold nextOf; rw [hn]; rfl
  unfold circular_queue_offer
  rw [if_neg (not_lt.2 h2), if_neg (by omega), if_neg hnlt, if_neg hfull]
  simp only [load, hrear, Option.bind_eq_bind, Option.some_bind, hr, hrn, hn, hm, hfront,
    cell_store_self _ hxlt]
  refine ⟨_, rfl, ?_, ?_, ?_, rfl, rfl, rfl, rfl, rfl, rfl⟩
  · constructor
    · have := hI.nodup
      simp only [List.append_nil] at this ⊢
      exact this.perm (@List.perm_append_comm _ [x] l)
    · show Path (nextOf (store _ _ _)) n.next _ n.next
      rw [hnx, List.append_nil]
      have hp := hI.path
      rw [List.append_nil, hfront] at hp
      have hp2 : Path (nextOf q.heap) n.next l (some x) := by
        have := hp.2
        rwa [hnxx] at this
      exact Path_append.2 ⟨some x, hp2, rfl, hnxx⟩
    · show some x = _
      simp
    · show q.ecount = _
      rw [hI.ecount]; simp
    · show q.scount = _
      rw [hI.scount]; simp
    · exact hI.cap
    · exact hI.cap_pos
    · intro h0; simp at h0
    · intro _
      obtain ⟨s, hs, hmem⟩ := hI.storage (by simp)
      refine ⟨s, hs, ?_⟩
      simp only [List.append_nil, List.mem_cons, List.mem_append, List.mem_singleton] at hmem ⊢
      tauto
    · intro a ha
      show ∃ e, cell (store _ _ _) a = some e ∧ e.value.length = q.elementsize
      by_cases hxa : x = a
      · subst hxa
        rw [cell_store_self _ hxlt]
        exact ⟨_, rfl, by rw [← hnl]; exact memcpy_length (by omega) h3⟩
      · rw [cell_store_ne _ hxa]
        apply hI.slots a
        simp only [List.append_nil, List.mem_cons, List.mem_append, List.mem_singleton] at ha ⊢
        tauto
    · intro a ha e
      show cell (store _ _ _) a = some e → 1 ≤ e.length ∧ e.length ≤ q.elementsize
      by_cases hxa : x = a
      · subst hxa
        rw [cell_store_self _ hxlt]
        intro he
        simp only [Option.some.injEq] at he
        subst he
        exact ⟨h1, h2⟩
      · rw [cell_store_ne _ hxa]
        intro he
        apply hI.lens a _ e he
        simp only [List.mem_cons, List.mem_append, List.mem_singleton] at ha ⊢
        tauto
  · show bytesAt (store _ _ _) x = _
    unfold bytesAt
    rw [cell_store_self _ hxlt]
    exact memcpy_take h3
  · intro a ha
    exact cell_store_ne _ (Ne.symm ha)

theorem offer_alloc_fail {m : Malloc} {q : circular_queue_t} {value : List Byte}
    {length : Nat} (h1 : 1 ≤ length) (h2 : length ≤ q.elementsize)
    (h3 : length ≤ value.length) (hnlt : ¬ q.ecount < q.scount)
    (hlt : q.ecount < q.capacity) (hm : m.space = none ∨ m.element = false) :
    circular_queue_offer m q value length = some (CIRCULAR_QUEUE_ERRNO_OUT_OF_MAMORY, q) := by
  unfold circular_queue_offer
  rw [if_neg (not_lt.2 h2), if_neg (by omega), if_neg hnlt, if_pos hlt]
  cases hs : m.space with
  | none => rfl
  | some junk =>
    rcases hm with hm | hm
    · rw [hs] at hm; simp at hm
    · simp only [Option.bind_eq_bind,
        memcpy_ok (by rw [freshBlock_length]; exact h2 : length ≤ (freshBlock junk q.elementsize).length) h3,
        Option.some_bind, hm, if_true]

theorem bytesAt_of_cell {heap : List (Option circular_queue_element_t)} {a : Nat}
    {e : circular_queue_element_t} (h : cell heap a = some e) :
    bytesAt heap a = e.value.take e.length := by
  unfold bytesAt; rw [h]

theorem offer_alloc {m : Malloc} {q : circular_queue_t} {live : List Nat}
    (hI : Inv q live []) (hlt : q.ecount < q.capacity) {junk : Nat → Byte}
    (hs : m.space = some junk) (he : m.element = true) {value : List Byte}
    {length : Nat} (h1 : 1 ≤ length) (h2 : length ≤ q.elementsize)
    (h3 : length ≤ value.length) :
    ∃ q2, circular_queue_offer m q value length = some (0, q2) ∧
      Inv q2 (live ++ [q.heap.length]) [] ∧
      bytesAt q2.heap q.heap.length = value.take length ∧
      (∀ a, a < q.heap.length → bytesAt q2.heap a = bytesAt q.heap a) ∧
      q2.capacity = q.capacity ∧ q2.elementsize = q.elementsize ∧
      q2.scount = q.scount + 1 ∧ q2.mutex = q.mutex ∧ q2.ecount = q.ecount + 1 := by
  have hnlt : ¬ q.ecount < q.scount := by
    rw [hI.ecount, hI.scount]; simp
  have hfl : length ≤ (freshBlock junk q.elementsize).length := by
    rw [freshBlock_length]; exact h2
  have hm := memcpy_ok hfl h3
  have hml : (value.take length ++ (freshBlock junk q.elementsize).drop length).length =
      q.elementsize := by
    rw [memcpy_length hfl h3, freshBlock_length]
  have hcap : q.scount + 1 ≤ q.capacity := by
    have := hI.ecount; have := hI.scount
    simp only [List.append_nil] at *
    omega
  have hlive : ∀ a ∈ live, a < q.heap.length := by
    intro a ha
    obtain ⟨e, hce, _⟩ := hI.slots a (by simpa using ha)
    exact cell_lt hce
  unfold circular_queue_offer
  rw [if_neg (not_lt.2 h2), if_neg (by omega), if_neg hnlt, if_pos hlt, hs]
  simp only [Option.bind_eq_bind, hm, Option.some_bind, he, Bool.true_eq_false, if_false]
  rcases List.eq_nil_or_concat live with h0 | ⟨L, z, hL⟩
  · subst h0
    have hE : q.ecount = 0 := by simpa using hI.ecount
    rw [if_pos hE]
    refine ⟨_, rfl, ?_, ?_, ?_, rfl, rfl, rfl, rfl, rfl⟩
    · constructor
      · simp
      · show Path (nextOf (q.heap ++ [some _])) (some q.heap.length) _ (some q.heap.length)
        refine ⟨rfl, ?_⟩
        show nextOf _ _ = _
        unfold nextOf
        rw [cell_append_new]
        rfl
      · show some q.heap.length = _
        simp
      · show q.ecount + 1 = _
        rw [hE]; simp
      · show q.scount + 1 = _
        rw [hI.scount]; simp
      · exact hcap
      · exact hI.cap_pos
      · intro h0; simp at h0
      · intro _
        exact ⟨q.heap.length, rfl, by simp⟩
      · intro a ha
        have ha2 : a = q.heap.length := by simpa using ha
        subst ha2
        show ∃ e, cell (q.heap ++ [some _]) q.heap.length = some e ∧ _
        rw [cell_append_new]
        exact ⟨_, rfl, hml⟩
      · intro a ha e
        have ha2 : a = q.heap.length := by simpa using ha
        subst ha2
        show cell (q.heap ++ [some _]) q.heap.length = some e → _
        rw [cell_append_new]
        intro hee
        simp only [Option.some.injEq] at hee
        subst hee
        exact ⟨h1, h2⟩
    · show bytesAt (q.heap ++ [some _]) q.heap.length = _
      rw [bytesAt_of_cell (cell_append_new _ _)]
      exact memcpy_take h3
    · intro a ha
      exact bytesAt_congr (cell_append_old _ ha)
  · rw [List.concat_eq_append] at hL
    subst hL
    have hE : q.ecount ≠ 0 := by
      have := hI.ecount
      simp only [List.length_append, List.length_singleton] at this
      omega
    have hrear : q.rear = some z := by
      have := hI.rear
      simpa using this
    obtain ⟨r, hr, hrl⟩ := hI.slots z (by simp)
    have hzlt := cell_lt hr
    have hzne : z ≠ q.heap.length := Nat.ne_of_lt hzlt
    rw [if_neg hE]
    simp only [hrear, Option.some_bind, hr]
    have hp := hI.path
    rw [List.append_nil] at hp
    have hrn : nextOf q.heap z = r.next := by
      unfold nextOf; rw [hr]; rfl
    have hlast : r.next = q.front := by rw [← hrn]; exact Path_last hp
    obtain ⟨mid, hp1, hp2⟩ := Path_append.1 hp
    have hmid : mid = some z := hp2.1
    subst hmid
    have hnd := hI.nodup
    rw [List.append_nil] at hnd
    have hzL : z ∉ L := by
      intro hz
      have := List.nodup_append.1 hnd
      exact this.2.2 hz (List.mem_singleton_self z) 
    -- cells of the new heap
    have hcz : ∀ e2 : circular_queue_element_t,
        cell (store q.heap z { r with next := some q.heap.length } ++ [some e2]) z =
          some { r with next := some q.heap.length } := by
      intro e2
      rw [cell_append_old _ (by rw [store_length]; exact hzlt), cell_store_self _ hzlt]
    have hcn : ∀ e2 : circular_queue_element_t,
        cell (store q.heap z { r with next := some q.heap.length } ++ [some e2]) q.heap.length =
          some e2 := by
      intro e2
      have := cell_append_new (store q.heap z { r with next := some q.heap.length }) e2
      rwa [store_length] at this
    have hco : ∀ (e2 : circular_queue_element_t) (a : Nat), a < q.heap.length → a ≠ z →
        cell (store q.heap z { r with next := some q.heap.length } ++ [some e2]) a =
          cell q.heap a := by
      intro e2 a ha haz
      rw [cell_append_old _ (by rw [store_length]; exact ha), cell_store_ne _ (Ne.symm haz)]
    refine ⟨_, rfl, ?_, ?_, ?_, rfl, rfl, rfl, rfl, rfl⟩
    · constructor
      · rw [List.append_nil]
        refine List.nodup_append.2 ⟨hnd, List.nodup_singleton _, ?_⟩
        intro a ha1 ha2
        have := hlive a ha1
        simp only [List.mem_singleton] at ha2
        omega
      · show Path (nextOf (_ ++ [some _])) q.front _ q.front
        rw [List.append_nil, List.append_assoc]
        refine Path_append.2 ⟨some z, ?_, rfl, ?_, ?_⟩
        · refine Path_congr ?_ hp1
          intro a ha
          unfold nextOf
          rw [hco _ a (hlive a (by simp [ha])) (fun h => hzL (h ▸ ha))]
        · unfold nextOf
          rw [hcz]
          rfl
        · show nextOf _ _ = _
          unfold nextOf
          rw [hcn]
          exact hlast
      · show some q.heap.length = _
        simp
      · show q.ecount + 1 = _
        rw [hI.ecount]; simp only [List.length_append, List.length_singleton]; push_cast; ring
      · show q.scount + 1 = _
        rw [hI.scount]
        simp only [List.length_append, List.length_singleton, List.length_nil]; push_cast; ring
      · exact hcap
      · exact hI.cap_pos
      · intro h0; simp at h0
      · intro _
        obtain ⟨s, hs2, hmem⟩ := hI.storage (by simp)
        refine ⟨s, hs2, ?_⟩
        simp only [List.append_nil, List.mem_append, List.mem_singleton] at hmem ⊢
        tauto
      · intro a ha
        show ∃ e, cell (_ ++ [some _]) a = some e ∧ e.value.length = q.elementsize
        rw [List.append_nil] at ha
        rcases List.mem_append.1 ha with ha1 | ha1
        · by_cases haz : a = z
          · subst haz
            rw [hcz]
            exact ⟨_, rfl, hrl⟩
          · rw [hco _ a (hlive a ha1) haz]
            exact hI.slots a (by simpa using ha1)
        · simp only [List.mem_singleton] at ha1
          subst ha1
          rw [hcn]
          exact ⟨_, rfl, hml⟩
      · intro a ha e
        show cell (_ ++ [some _]) a = some e → _
        rcases List.mem_append.1 ha with ha1 | ha1
        · by_cases haz : a = z
          · subst haz
            rw [hcz]
            intro hee
            simp only [Option.some.injEq] at hee
            subst hee
            exact hI.lens a ha1 r hr
          · rw [hco _ a (hlive a ha1) haz]
            exact hI.lens a ha1 e
        · simp only [List.mem_singleton] at ha1
          subst ha1
          rw [hcn]
          intro hee
          simp only [Option.some.injEq] at hee
          subst hee
          exact ⟨h1, h2⟩
    · show bytesAt (_ ++ [some _]) q.heap.length = _
      rw [bytesAt_of_cell (hcn _)]
      exact memcpy_take h3
    · intro a ha
      show bytesAt (_ ++ [some _]) a = _
      by_cases haz : a = z
      · subst haz
        rw [bytesAt_of_cell (hcz _), bytesAt_of_cell hr]
      · exact bytesAt_congr (hco _ a ha haz)

theorem getElem?_mid {α : Type} (pre : List α) (b : α) (rest : List α) :
    (pre ++ b :: rest)[pre.length]? = some b := by
  induction pre with
  | nil => simp
  | cons a pre ih => simpa using ih

theorem set_mid {α : Type} (pre : List α) (b c : α) (rest : List α) :
    (pre ++ b :: rest).set pre.length c = pre ++ c :: rest := by
  induction pre with
  | nil => rfl
  | cons a pre ih => simp [ih]

theorem bytesAt_length {heap : List (Option circular_queue_element_t)} {x : Nat}
    {e : circular_queue_element_t} (h : cell heap x = some e) (h1 : e.length ≤ e.value.length) :
    (bytesAt heap x).length = e.length := by
  rw [bytesAt_of_cell h, List.length_take]
  exact Nat.min_eq_left h1

theorem bucketLoop_spec (size : Nat) (wrap : List Nat → Option (List Nat))
    (hw : wrap = some ∨ wrap = fun _ => none) :
    ∀ (xs : List Nat) (q : circular_queue_t) (p : Ptr) (pre bs post : List (List Byte))
      (apre as apost : List Nat) (t : Nat),
      Path (nextOf q.heap) q.front xs p →
      (∀ x ∈ xs, ∃ e, cell q.heap x = some e ∧ e.length ≤ e.value.length ∧ e.length ≤ size) →
      bs.length = xs.length → (∀ b ∈ bs, b.length = size) → as.length = xs.length →
      apre.length = pre.length →
      bucketLoop size xs.length pre.length
          { queue := q, buffer := pre ++ bs ++ post, asize := wrap (apre ++ as ++ apost),
            tsize := t } =
        some { queue := { q with front := p, ecount := q.ecount - (xs.length : Int) }
               buffer := pre ++ xs.map (fun x => pad size (bytesAt q.heap x)) ++ post
               asize := wrap (apre ++ xs.map (fun x => (bytesAt q.heap x).length) ++ apost)
               tsize := t + (xs.map (fun x => (bytesAt q.heap x).length)).sum } := by
  intro xs
  induction xs with
  | nil =>
    intro q p pre bs post apre as apost t hp _ hbs _ has _
    have hbs0 : bs = [] := List.length_eq_zero.1 hbs
    have has0 : as = [] := List.length_eq_zero.1 has
    subst hbs0; subst has0
    have hp2 : q.front = p := hp
    subst hp2
    simp [bucketLoop]
  | cons x xs ih =>
    intro q p pre bs post apre as apost t hp hc hbs hb has hpre
    obtain ⟨hf, hp2⟩ := hp
    obtain ⟨e, he, hle1, hle2⟩ := hc x (List.mem_cons_self x xs)
    cases bs with
    | nil => simp at hbs
    | cons b bs =>
    cases as with
    | nil => simp at has
    | cons a as =>
    have hbl : b.length = size := hb b (List.mem_cons_self b bs)
    have hnx : nextOf q.heap x = e.next := by unfold nextOf; rw [he]; rfl
    have hlen := bytesAt_length he hle1
    have hbytes := bytesAt_of_cell he
    have hstep := ih { q with front := e.next, ecount := q.ecount - 1 } p
      (pre ++ [pad size (bytesAt q.heap x)]) bs post
      (apre ++ [(bytesAt q.heap x).length]) as apost (t + (bytesAt q.heap x).length)
      (by rw [← hnx]; exact hp2)
      (fun y hy => hc y (List.mem_cons_of_mem x hy))
      (by simpa using hbs) (fun c hcm => hb c (List.mem_cons_of_mem b hcm))
      (by simpa using has) (by simp [hpre])
    have hms : memset b 0 size = some (List.replicate size 0) := by
      have hd : b.drop size = [] := by
        apply List.drop_eq_nil_of_le; omega
      simp [memset, hbl, hd]
    have hmc : memcpy (List.replicate size 0) e.value e.length =
        some (pad size (bytesAt q.heap x)) := by
      rw [memcpy_ok (by simp; exact hle2) hle1, hbytes]
      simp only [pad, List.drop_replicate, List.length_take]
      rw [Nat.min_eq_left hle1]
    have hasz : writeAsize (wrap (apre ++ a :: as ++ apost)) pre.length e.length =
        some (wrap (apre ++ [(bytesAt q.heap x).length] ++ as ++ apost)) := by
      rcases hw with hw | hw
      · subst hw
        have h1 : pre.length < (apre ++ a :: as ++ apost).length := by
          simp [hpre]
        simp only [writeAsize, h1, if_true]
        rw [← hpre, List.append_assoc, List.cons_append, set_mid, hlen]
        simp
      · subst hw
        rfl
    rw [List.length_cons, bucketLoop]
    simp only [List.append_assoc, List.cons_append, getElem?_mid, Option.bind_eq_bind,
      Option.some_bind, load, hf, he, hms, hmc, set_mid]
    rw [← List.cons_append, ← List.append_assoc, hasz]
    simp only [List.length_append, List.length_singleton, List.append_assoc,
      List.singleton_append, List.cons_append, List.nil_append, Option.some_bind] at hstep ⊢
    simp only [hlen] at hstep ⊢
    rw [hstep]
    simp only [List.map_cons, List.sum_cons, List.cons_append, hlen, Option.some.injEq]
    have h1 : q.ecount - 1 - (xs.length : Int) = q.ecount - ((xs.length + 1 : Nat) : Int) := by
      push_cast; ring
    rw [h1, Nat.add_assoc]

theorem bucket_empty {q : circular_queue_t} {size : Nat} (hsize : q.elementsize ≤ size)
    (hE : q.ecount ≤ 0) (buffer : List (List Byte)) (count : Int) (acount : Option Int)
    (asize : Option (List Nat)) :
    circular_queue_bucket q buffer count size acount asize =
      some { ret := 0, queue := q, buffer := buffer, acount := acount, asize := asize } := by
  unfold circular_queue_bucket
  rw [if_neg (not_lt.2 hsize), if_pos hE]

/-- Removing the `n` oldest elements: `front` moves `n` links forward and the
slots it leaves become spare. -/
theorem Inv_advance {q : circular_queue_t} {live spare : List Nat} (hI : Inv q live spare)
    {n : Nat} (hnl : n ≤ live.length) {p : Ptr}
    (hp1 : Path (nextOf q.heap) q.front (live.take n) p) :
    Inv { q with front := p, ecount := q.ecount - (n : Int) } (live.drop n)
      (spare ++ live.take n) := by
  have hsplit : live ++ spare = live.take n ++ (live.drop n ++ spare) := by
    rw [← List.append_assoc, List.take_append_drop]
  have hp := hI.path
  rw [hsplit] at hp
  have hperm : (live ++ spare).Perm (live.drop n ++ (spare ++ live.take n)) := by
    rw [hsplit]
    exact List.perm_append_comm.trans (by rw [List.append_assoc])
  constructor
  · exact hI.nodup.perm hperm
  · show Path (nextOf q.heap) p _ p
    have := Path_rotate hp hp1
    rwa [List.append_assoc] at this
  · show q.rear = _
    rw [List.append_assoc, List.take_append_drop]
    exact hI.rear
  · show q.ecount - (n : Int) = _
    rw [hI.ecount, List.length_drop]
    omega
  · show q.scount = _
    rw [hI.scount, hperm.length_eq]
  · exact hI.cap
  · exact hI.cap_pos
  · intro h0
    have h1 : live ++ spare = [] := List.Perm.eq_nil (h0 ▸ hperm)
    have h2 : live = [] := (List.append_eq_nil.1 h1).1
    subst h2
    have h3 : q.front = p := by
      rw [List.take_nil] at hp1
      exact hp1
    show p = none ∧ q.storage = none
    rw [← h3]
    exact hI.empty h1
  · intro hne
    obtain ⟨s, hs, hmem⟩ := hI.storage (by
      intro h0
      apply hne
      exact List.Perm.eq_nil (List.Perm.symm (h0 ▸ hperm)))
    exact ⟨s, hs, hperm.mem_iff.1 hmem⟩
  · intro x hx
    exact hI.slots x (hperm.mem_iff.2 hx)
  · intro x hx e he
    exact hI.lens x (List.mem_of_mem_drop hx) e he

theorem bucket_spec {q : circular_queue_t} {live spare : List Nat} (hI : Inv q live spare)
    {size : Nat} (hsize : q.elementsize ≤ size) (hE : 0 < q.ecount)
    (buffer : List (List Byte)) (count : Int) (acount : Option Int)
    (asize : Option (List Nat)) (n : Nat)
    (hn : n = (if count < q.ecount then count else q.ecount).toNat)
    (hbuf : n ≤ buffer.length) (hb : ∀ b ∈ buffer.take n, b.length = size)
    (has : ∀ a, asize = some a → n ≤ a.length) :
    ∃ r, circular_queue_bucket q buffer count size acount asize = some r ∧
      r.ret = (((live.take n).map fun x => (bytesAt q.heap x).length).sum : Nat) ∧
      r.buffer = ((live.take n).map fun x => pad size (bytesAt q.heap x)) ++ buffer.drop n ∧
      r.acount = acount.map (fun _ => if count < q.ecount then count else q.ecount) ∧
      r.asize = asize.map (fun a =>
        ((live.take n).map fun x => (bytesAt q.heap x).length) ++ a.drop n) ∧
      Inv r.queue (live.drop n) (spare ++ live.take n) ∧
      r.queue.heap = q.heap ∧ r.queue.ecount = q.ecount - (n : Int) ∧
      r.queue.capacity = q.capacity ∧ r.queue.elementsize = q.elementsize ∧
      r.queue.scount = q.scount ∧ r.queue.storage = q.storage ∧ r.queue.rear = q.rear ∧
      r.queue.mutex = q.mutex := by
  have hnl : n ≤ live.length := by
    have := hI.ecount
    split at hn <;> omega
  have hxl : (live.take n).length = n := by
    rw [List.length_take]; exact Nat.min_eq_left hnl
  have hsplit : live ++ spare = live.take n ++ (live.drop n ++ spare) := by
    rw [← List.append_assoc, List.take_append_drop]
  have hp := hI.path
  rw [hsplit] at hp
  obtain ⟨p, hp1, hp2⟩ := Path_append.1 hp
  have hcells : ∀ x ∈ live.take n, ∃ e, cell q.heap x = some e ∧ e.length ≤ e.value.length ∧
      e.length ≤ size := by
    intro x hx
    have hxl : x ∈ live := List.mem_of_mem_take hx
    obtain ⟨e, he, hel⟩ := hI.slots x (List.mem_append_left _ hxl)
    have := hI.lens x hxl e he
    exact ⟨e, he, by omega, by omega⟩
  obtain ⟨wrap, as, apost, hw, hwa, hwl, hwr⟩ : ∃ (wrap : List Nat → Option (List Nat))
      (as apost : List Nat), (wrap = some ∨ wrap = fun _ => none) ∧
      asize = wrap ([] ++ as ++ apost) ∧ as.length = (live.take n).length ∧
      ∀ l : List Nat, wrap ([] ++ l ++ apost) = asize.map (fun a => l ++ a.drop n) := by
    cases asize with
    | none =>
      exact ⟨fun _ => none, List.replicate n 0, [], Or.inr rfl, rfl, by simp [hxl],
        fun _ => rfl⟩
    | some a =>
      have hal := has a rfl
      refine ⟨some, a.take n, a.drop n, Or.inl rfl, by simp, ?_, fun _ => by simp⟩
      rw [hxl, List.length_take]; exact Nat.min_eq_left hal
  have hloop := bucketLoop_spec size wrap hw (live.take n) q p [] (buffer.take n)
    (buffer.drop n) [] as apost 0 hp1 hcells
    (by rw [hxl, List.length_take]; exact Nat.min_eq_left hbuf) hb hwl rfl
  rw [← hwa, hxl, hwr] at hloop
  simp only [List.nil_append, List.take_append_drop, List.length_nil, Nat.zero_add] at hloop
  unfold circular_queue_bucket
  rw [if_neg (not_lt.2 hsize), if_neg (not_le.2 hE)]
  simp only []
  rw [← hn, hloop]
  refine ⟨_, rfl, rfl, rfl, rfl, rfl, ?_, rfl, rfl, rfl, rfl, rfl, rfl, rfl, rfl⟩
  exact Inv_advance hI hnl hp1

theorem bucketLoop_queue (size : Nat) :
    ∀ (xs : List Nat) (i : Nat) (s s2 : BucketLoop) (p : Ptr),
      Path (nextOf s.queue.heap) s.queue.front xs p →
      bucketLoop size xs.length i s = some s2 →
      s2.queue = { s.queue with front := p, ecount := s.queue.ecount - (xs.length : Int) } := by
  intro xs
  induction xs with
  | nil =>
    intro i s s2 p hp h
    have hp2 : s.queue.front = p := hp
    simp only [List.length_nil, bucketLoop, Option.some.injEq] at h
    subst h; subst hp2
    simp
  | cons x xs ih =>
    intro i s s2 p hp h
    obtain ⟨hf, hp2⟩ := hp
    rw [List.length_cons, bucketLoop] at h
    simp only [Option.bind_eq_bind, Option.bind_eq_some] at h
    obtain ⟨b, _, b1, _, f, hload, b2, _, a1, _, hrec⟩ := h
    rw [hf] at hload
    have hcell : cell s.queue.heap x = some f := hload
    have hnx : nextOf s.queue.heap x = f.next := by unfold nextOf; rw [hcell]; rfl
    have := ih _ _ _ p (by rw [← hnx]; exact hp2) hrec
    rw [this]
    simp only [List.length_cons]
    have h1 : s.queue.ecount - 1 - (xs.length : Int) =
        s.queue.ecount - ((xs.length + 1 : Nat) : Int) := by
      push_cast; ring
    rw [h1]

theorem bucket_inv {q : circular_queue_t} {live spare : List Nat} (hI : Inv q live spare)
    {buffer : List (List Byte)} {count : Int} {size : Nat} {acount : Option Int}
    {asize : Option (List Nat)} {r : BucketResult}
    (h : circular_queue_bucket q buffer count size acount asize = some r) :
    ∃ n, n ≤ live.length ∧ Inv r.queue (live.drop n) (spare ++ live.take n) ∧
      r.queue.heap = q.heap ∧ r.queue.ecount = q.ecount - (n : Int) ∧
      r.queue.capacity = q.capacity ∧ r.queue.elementsize = q.elementsize ∧
      r.queue.scount = q.scount ∧ r.queue.storage = q.storage ∧ r.queue.rear = q.rear ∧
      r.queue.mutex = q.mutex := by
  have hzero : ∀ r2 : BucketResult, r2.queue = q →
      ∃ n, n ≤ live.length ∧ Inv r2.queue (live.drop n) (spare ++ live.take n) ∧
      r2.queue.heap = q.heap ∧ r2.queue.ecount = q.ecount - (n : Int) ∧
      r2.queue.capacity = q.capacity ∧ r2.queue.elementsize = q.elementsize ∧
      r2.queue.scount = q.scount ∧ r2.queue.storage = q.storage ∧ r2.queue.rear = q.rear ∧
      r2.queue.mutex = q.mutex := by
    intro r2 h2
    rw [h2]
    exact ⟨0, Nat.zero_le _, by simpa using hI, rfl, by simp, rfl, rfl, rfl, rfl, rfl, rfl⟩
  unfold circular_queue_bucket at h
  split at h
  · simp only [Option.some.injEq] at h
    exact hzero r (by rw [← h])
  · split at h
    · simp only [Option.some.injEq] at h
      exact hzero r (by rw [← h])
    · rename_i hE
      simp only [Option.map_eq_some'] at h
      obtain ⟨s2, hloop, hr⟩ := h
      have hnl : (if count < q.ecount then count else q.ecount).toNat ≤ live.length := by
        have := hI.ecount
        split <;> omega
      generalize (if count < q.ecount then count else q.ecount).toNat = n at hloop hnl
      have hxl : (live.take n).length = n := by
        rw [List.length_take]; exact Nat.min_eq_left hnl
      have hsplit : live ++ spare = live.take n ++ (live.drop n ++ spare) := by
        rw [← List.append_assoc, List.take_append_drop]
      have hp := hI.path
      rw [hsplit] at hp
      obtain ⟨p, hp1, _⟩ := Path_append.1 hp
      rw [← hxl] at hloop
      have hq := bucketLoop_queue size (live.take n) 0 _ s2 p hp1 hloop
      rw [hxl] at hq
      simp only [] at hq
      refine ⟨n, hnl, ?_⟩
      rw [← hr]
      simp only []
      rw [hq]
      exact ⟨Inv_advance hI hnl hp1, rfl, rfl, rfl, rfl, rfl, rfl, rfl, rfl⟩

theorem poll_inv {q : circular_queue_t} {live spare : List Nat} (hI : Inv q live spare)
    {buffer : List Byte} {size : Nat} {r : PollResult}
    (h : circular_queue_poll q buffer size = some r) :
    ∃ n, n ≤ live.length ∧ Inv r.queue (live.drop n) (spare ++ live.take n) := by
  unfold circular_queue_poll at h
  simp only [Option.map_eq_some'] at h
  obtain ⟨br, hb, hr⟩ := h
  obtain ⟨n, hn, hInv, _⟩ := bucket_inv hI hb
  refine ⟨n, hn, ?_⟩
  rw [← hr]
  exact hInv

theorem map_bytesAt_congr {h1 h2 : List (Option circular_queue_element_t)} {xs : List Nat}
    (h : ∀ x ∈ xs, bytesAt h1 x = bytesAt h2 x) :
    xs.map (bytesAt h1) = xs.map (bytesAt h2) :=
  List.map_congr_left h

theorem offer_ok (m : Malloc) {q : circular_queue_t} {live spare : List Nat}
    (hI : Inv q live spare) {value : List Byte} {length : Nat} (h1 : 1 ≤ length)
    (h2 : length ≤ q.elementsize) (h3 : length ≤ value.length) :
    ∃ r, circular_queue_offer m q value length = some r ∧
      ((r.1 = CIRCULAR_QUEUE_ERRNO_OUT_OF_MAMORY ∧ r.2 = q ∧
          (m.space = none ∨ m.element = false) ∧ spare = [] ∧ q.ecount < q.capacity) ∨
       (r.1 = 0 ∧ ∃ live2 spare2, Inv r.2 live2 spare2 ∧
          live2.map (bytesAt r.2.heap) =
            (live.map (bytesAt q.heap) ++ [value.take length]).drop
              (live.length + 1 - q.capacity.toNat) ∧
          r.2.capacity = q.capacity ∧ r.2.elementsize = q.elementsize ∧
          r.2.mutex = q.mutex)) := by
  have hcapl : (live ++ spare).length ≤ q.capacity.toNat := by
    have := hI.scount; have := hI.cap
    omega
  cases spare with
  | cons y sp =>
    obtain ⟨q2, ho, hI2, hby, hfr, hc, he, _, hmx, _⟩ := offer_reuse m hI h1 h2 h3
    refine ⟨_, ho, Or.inr ⟨rfl, live ++ [y], sp, hI2, ?_, hc, he, hmx⟩⟩
    have hd : live.length + 1 - q.capacity.toNat = 0 := by
      simp only [List.length_append, List.length_cons] at hcapl
      omega
    rw [hd, List.drop_zero, List.map_append, List.map_singleton]
    show List.map (bytesAt q2.heap) live ++ [bytesAt q2.heap y] = _
    rw [hby]
    congr 1
    apply map_bytesAt_congr
    intro x hx
    apply bytesAt_congr
    apply hfr
    intro hxy
    subst hxy
    have := hI.nodup
    exact (List.nodup_append.1 this).2.2 hx (List.mem_cons_self _ _)
  | nil =>
    by_cases hlt : q.ecount < q.capacity
    · by_cases hm : m.space = none ∨ m.element = false
      · have hnlt : ¬ q.ecount < q.scount := by
          rw [hI.ecount, hI.scount]; simp
        exact ⟨_, offer_alloc_fail h1 h2 h3 hnlt hlt hm, Or.inl ⟨rfl, rfl, hm, rfl, hlt⟩⟩
      · have hs : ∃ junk, m.space = some junk := by
          cases h : m.space with
          | none => exact absurd (Or.inl h) hm
          | some j => exact ⟨j, rfl⟩
        obtain ⟨junk, hs⟩ := hs
        have he : m.element = true := by
          cases h : m.element with
          | false => exact absurd (Or.inr h) hm
          | true => rfl
        obtain ⟨q2, ho, hI2, hby, hfr, hc, hes, _, hmx, _⟩ := offer_alloc hI hlt hs he h1 h2 h3
        refine ⟨_, ho, Or.inr ⟨rfl, live ++ [q.heap.length], [], hI2, ?_, hc, hes, hmx⟩⟩
        have hd : live.length + 1 - q.capacity.toNat = 0 := by
          have := hI.ecount
          omega
        rw [hd, List.drop_zero, List.map_append, List.map_singleton]
        show List.map (bytesAt q2.heap) live ++ [bytesAt q2.heap q.heap.length] = _
        rw [hby]
        congr 1
        apply map_bytesAt_congr
        intro x hx
        apply hfr
        obtain ⟨e, hce, _⟩ := hI.slots x (by simpa using hx)
        exact cell_lt hce
    · cases live with
      | nil =>
        exfalso
        have := hI.ecount; have := hI.cap_pos
        simp only [List.length_nil] at *
        omega
      | cons x l =>
        obtain ⟨q2, ho, hI2, hby, hfr, hc, he, _, hmx, _⟩ := offer_overwrite m hI hlt h1 h2 h3
        refine ⟨_, ho, Or.inr ⟨rfl, l ++ [x], [], hI2, ?_, hc, he, hmx⟩⟩
        have hd : (x :: l).length + 1 - q.capacity.toNat = 1 := by
          have := hI.ecount
          simp only [List.length_cons, List.append_nil] at *
          omega
        rw [hd, List.map_append, List.map_singleton, List.map_cons, List.cons_append,
          List.drop_succ_cons, List.drop_zero]
        show List.map (bytesAt q2.heap) l ++ [bytesAt q2.heap x] = _
        rw [hby]
        congr 1
        apply map_bytesAt_congr
        intro a ha
        apply bytesAt_congr
        apply hfr
        intro hax
        subst hax
        have := hI.nodup
        simp only [List.append_nil, List.nodup_cons] at this
        exact this.1 ha

theorem offer_inv {m : Malloc} {q : circular_queue_t} {live spare : List Nat}
    (hI : Inv q live spare) {value : List Byte} {length : Nat} {r : Int × circular_queue_t}
    (h : circular_queue_offer m q value length = some r) :
    ∃ live2 spare2, Inv r.2 live2 spare2 := by
  by_cases h2 : q.elementsize < length
  · unfold circular_queue_offer at h
    rw [if_pos h2] at h
    simp only [Option.some.injEq] at h
    rw [← h]
    exact ⟨live, spare, hI⟩
  · by_cases h1 : length ≤ 0
    · unfold circular_queue_offer at h
      rw [if_neg h2, if_pos h1] at h
      simp only [Option.some.injEq] at h
      rw [← h]
      exact ⟨live, spare, hI⟩
    · by_cases h3 : length ≤ value.length
      · obtain ⟨r2, ho, hcase⟩ := offer_ok m hI (by omega) (by omega) h3
        rw [ho] at h
        simp only [Option.some.injEq] at h
        subst h
        rcases hcase with ⟨_, hq, _⟩ | ⟨_, live2, spare2, hI2, _⟩
        · rw [hq]; exact ⟨live, spare, hI⟩
        · exact ⟨live2, spare2, hI2⟩
      · have hmc : ∀ dst : List Byte, memcpy dst value length = none := by
          intro dst
          unfold memcpy
          rw [if_neg]
          intro hh
          exact h3 hh.2
        unfold circular_queue_offer at h
        rw [if_neg h2, if_neg h1] at h
        split at h
        · simp [hmc] at h
        · split at h
          · split at h
            · simp only [Option.some.injEq] at h
              rw [← h]
              exact ⟨live, spare, hI⟩
            · simp [hmc] at h
          · simp [hmc] at h

theorem Reachable_Inv {q : circular_queue_t} (h : Reachable q) :
    ∃ live spare, Inv q live spare := by
  induction h with
  | configured hc => exact ⟨[], [], (Inv_of_Configured hc).1⟩
  | offer m value length r _ ho ih =>
    obtain ⟨live, spare, hI⟩ := ih
    exact offer_inv hI ho
  | poll buffer size r _ hp ih =>
    obtain ⟨live, spare, hI⟩ := ih
    obtain ⟨n, _, hI2⟩ := poll_inv hI hp
    exact ⟨_, _, hI2⟩
  | bucket buffer count size acount asize r _ hb ih =>
    obtain ⟨live, spare, hI⟩ := ih
    obtain ⟨n, _, hI2, _⟩ := bucket_inv hI hb
    exact ⟨_, _, hI2⟩
  | lock r _ hl ih =>
    obtain ⟨live, spare, hI⟩ := ih
    unfold circular_queue_lock at hl
    split at hl
    · simp only [Option.some.injEq] at hl
      rw [← hl]
      exact ⟨live, spare, ⟨hI.nodup, hI.path, hI.rear, hI.ecount, hI.scount, hI.cap,
        hI.cap_pos, hI.empty, hI.storage, hI.slots, hI.lens⟩⟩
    · simp at hl
  | unlock r _ hl ih =>
    obtain ⟨live, spare, hI⟩ := ih
    unfold circular_queue_unlock at hl
    split at hl
    · simp only [Option.some.injEq] at hl
      rw [← hl]
      exact ⟨live, spare, ⟨hI.nodup, hI.path, hI.rear, hI.ecount, hI.scount, hI.cap,
        hI.cap_pos, hI.empty, hI.storage, hI.slots, hI.lens⟩⟩
    · simp at hl

theorem Inv.liveSlots_eq {q : circular_queue_t} {live spare : List Nat}
    (hI : Inv q live spare) : liveSlots q = live := by
  unfold liveSlots
  rw [hI.ecount, Int.toNat_ofNat]
  exact walk_append_of_Path hI.path

theorem Inv.contents_eq {q : circular_queue_t} {live spare : List Nat}
    (hI : Inv q live spare) : contents q = live.map (bytesAt q.heap) := by
  unfold contents
  rw [hI.liveSlots_eq]

theorem Inv.contents_length {q : circular_queue_t} {live spare : List Nat}
    (hI : Inv q live spare) : ((contents q).length : Int) = q.ecount := by
  rw [hI.contents_eq, List.length_map, hI.ecount]

theorem testQueue_configured : Configured testQueue :=
  Configured.setelementsize 20 (Configured.setcapacity 5 (Configured.init blankQueue) (by decide))

theorem smallQueue_configured : Configured smallQueue :=
  Configured.setelementsize 3 (Configured.setcapacity 2 (Configured.init blankQueue) (by decide))

/-- C4 (oversize rejection): for every buffer state and every element whose
length exceeds `elementsize`, `circular_queue_offer` returns
`CIRCULAR_QUEUE_ERRNO_LESS_THAN_ELEMENTSIZE`, which is -1, and the state after the
call is the state before it, so every later poll behaves as without the offer. -/
theorem C4_oversize_rejected (m : Malloc) (q : circular_queue_t) (value : List Byte)
    (length : Nat) (h : q.elementsize < length) :
    ∃ r, circular_queue_offer m q value length = some r ∧
      r.1 = CIRCULAR_QUEUE_ERRNO_LESS_THAN_ELEMENTSIZE ∧ r.1 = -1 ∧ r.2 = q ∧
      ∀ (buffer : List Byte) (size : Nat),
        circular_queue_poll r.2 buffer size = circular_queue_poll q buffer size := by
  refine ⟨(CIRCULAR_QUEUE_ERRNO_LESS_THAN_ELEMENTSIZE, q), ?_, rfl, rfl, rfl, fun _ _ => rfl⟩
  unfold circular_queue_offer
  rw [if_pos h]

theorem C4_oversize_rejected_witness :
    ∃ r, circular_queue_offer mallocOk testQueue (List.replicate 23 76) 23 = some r ∧
      r.1 = CIRCULAR_QUEUE_ERRNO_LESS_THAN_ELEMENTSIZE ∧ r.1 = -1 ∧ r.2 = testQueue ∧
      ∀ (buffer : List Byte) (size : Nat),
        circular_queue_poll r.2 buffer size = circular_queue_poll testQueue buffer size :=
  C4_oversize_rejected mallocOk testQueue (List.replicate 23 76) 23 (by decide)

/-- C5 (the header's bound on the length, evaluated where the code departs from
it): an element whose length equals `elementsize` is not rejected;
`circular_queue_offer` returns 0 and the element is queued. -/
theorem C5_full_length_accepted :
    ∃ q2, circular_queue_offer mallocOk smallQueue [1, 2, 3] 3 = some (0, q2) ∧
      smallQueue.elementsize = 3 ∧ q2.ecount = 1 ∧ contents q2 = [[1, 2, 3]] :=
  ⟨_, rfl, rfl, rfl, by decide⟩

/-- C6 (zero-length offer): for every buffer state, `circular_queue_offer` with
length 0 returns 0 and the state after the call is the state before it. -/
theorem C6_zero_length_noop (m : Malloc) (q : circular_queue_t) (value : List Byte) :
    circular_queue_offer m q value 0 = some (0, q) := by
  unfold circular_queue_offer
  rw [if_neg (Nat.not_lt_zero _), if_pos (Nat.le_refl 0)]

/-- C7 as stated fails: on an empty buffer a poll and a bucket call with a
destination smaller than `elementsize` return the error code -1. -/
theorem C7_counterexample :
    testQueue.ecount = 0 ∧
      (circular_queue_poll testQueue (List.replicate 10 0) 10).map (fun r => r.ret) =
        some CIRCULAR_QUEUE_ERRNO_LESS_THAN_ELEMENTSIZE ∧
      (circular_queue_bucket testQueue [List.replicate 10 0] 1 10 (some 0) none).map
        (fun r => r.ret) = some (-1) := by
  decide

/-- C7 amended (empty poll): for every buffer with `ecount = 0`, every
destination capacity of at least `elementsize` and every requested count,
`circular_queue_bucket` and `circular_queue_poll` return 0, and leave the queue
and the destination buffers as they were. -/
theorem C7_empty_poll (q : circular_queue_t) (h0 : q.ecount = 0) (size : Nat)
    (hsize : q.elementsize ≤ size) (buffer : List (List Byte)) (count : Int)
    (acount : Option Int) (asize : Option (List Nat)) (b : List Byte) :
    (∃ r, circular_queue_bucket q buffer count size acount asize = some r ∧
      r.ret = 0 ∧ r.queue = q ∧ r.buffer = buffer) ∧
    (∃ r, circular_queue_poll q b size = some r ∧
      r.ret = 0 ∧ r.queue = q ∧ r.buffer = b) := by
  have hE : q.ecount ≤ 0 := by omega
  refine ⟨⟨_, bucket_empty hsize hE buffer count acount asize, rfl, rfl, rfl⟩, ?_⟩
  unfold circular_queue_poll
  rw [bucket_empty hsize hE]
  exact ⟨_, rfl, rfl, rfl, rfl⟩

theorem C7_empty_poll_witness :
    (∃ r, circular_queue_bucket testQueue [List.replicate 20 7] 3 20 (some 9) none = some r ∧
      r.ret = 0 ∧ r.queue = testQueue ∧ r.buffer = [List.replicate 20 7]) ∧
    (∃ r, circular_queue_poll testQueue (List.replicate 20 7) 20 = some r ∧
      r.ret = 0 ∧ r.queue = testQueue ∧ r.buffer = List.replicate 20 7) :=
  C7_empty_poll testQueue (by decide) 20 (by decide) [List.replicate 20 7] 3 (some 9) none
    (List.replicate 20 7)

theorem bucket_ret_nonneg {q : circular_queue_t} {buffer : List (List Byte)} {count : Int}
    {size : Nat} {acount : Option Int} {asize : Option (List Nat)} {r : BucketResult}
    (hsize : q.elementsize ≤ size)
    (h : circular_queue_bucket q buffer count size acount asize = some r) : 0 ≤ r.ret := by
  unfold circular_queue_bucket at h
  rw [if_neg (not_lt.2 hsize)] at h
  split at h
  · simp only [Option.some.injEq] at h
    rw [← h]
  · simp only [Option.map_eq_some'] at h
    obtain ⟨s, _, hs⟩ := h
    rw [← hs]
    exact Int.ofNat_nonneg _

theorem mcount_toNat_le (count e : Int) :
    (if count < e then count else e).toNat ≤ count.toNat := by
  split <;> omega

theorem bucket_returns {q : circular_queue_t} {live spare : List Nat} (hI : Inv q live spare)
    {buffer : List (List Byte)} {count : Int} {size : Nat} (acount : Option Int)
    {asize : Option (List Nat)} (hsize : q.elementsize ≤ size)
    (hd : DestOk buffer count size asize) :
    ∃ r, circular_queue_bucket q buffer count size acount asize = some r := by
  by_cases hE : q.ecount ≤ 0
  · exact ⟨_, bucket_empty hsize hE buffer count acount asize⟩
  · have hle := mcount_toNat_le count q.ecount
    obtain ⟨r, hr, _⟩ := bucket_spec hI hsize (not_le.1 hE) buffer count acount asize _ rfl
      (le_trans hle hd.1) (fun b hb => hd.2.1 b (List.mem_of_mem_take hb))
      (fun a ha => le_trans hle (hd.2.2 a ha))
    exact ⟨r, hr⟩

/-- C8 (destination too small): for every buffer state, a bucket or poll call
whose per-buffer capacity is below `elementsize` returns the error code -1 and
changes neither the queue nor the destination buffers nor the out-parameters;
with a capacity of at least `elementsize` no call returns a negative value, and
from every reachable state the call does return when the caller supplies the
destinations the call asks for. -/
theorem C8_destination_too_small (q : circular_queue_t) (buffer : List (List Byte))
    (count : Int) (size : Nat) (acount : Option Int) (asize : Option (List Nat))
    (b : List Byte) :
    (size < q.elementsize →
      circular_queue_bucket q buffer count size acount asize =
        some { ret := -1, queue := q, buffer := buffer, acount := acount, asize := asize } ∧
      circular_queue_poll q b size = some { ret := -1, queue := q, buffer := b } ∧
      CIRCULAR_QUEUE_ERRNO_LESS_THAN_ELEMENTSIZE = -1) ∧
    (q.elementsize ≤ size →
      (∀ r, circular_queue_bucket q buffer count size acount asize = some r → 0 ≤ r.ret) ∧
      (∀ r, circular_queue_poll q b size = some r → 0 ≤ r.ret) ∧
      (Reachable q → DestOk buffer count size asize →
        ∃ r, circular_queue_bucket q buffer count size acount asize = some r ∧ 0 ≤ r.ret) ∧
      (Reachable q → b.length = size →
        ∃ r, circular_queue_poll q b size = some r ∧ 0 ≤ r.ret)) := by
  constructor
  · intro h
    have hb : ∀ (bf : List (List Byte)) (c : Int) (ac : Option Int) (az : Option (List Nat)),
        circular_queue_bucket q bf c size ac az =
          some { ret := -1, queue := q, buffer := bf, acount := ac, asize := az } := by
      intro bf c ac az
      unfold circular_queue_bucket
      rw [if_pos h]
      rfl
    refine ⟨hb _ _ _ _, ?_, rfl⟩
    unfold circular_queue_poll
    rw [hb]
    rfl
  · intro hsize
    have hpoll : ∀ r, circular_queue_poll q b size = some r → 0 ≤ r.ret := by
      intro r hr
      unfold circular_queue_poll at hr
      simp only [Option.map_eq_some'] at hr
      obtain ⟨br, hbr, hrr⟩ := hr
      rw [← hrr]
      exact bucket_ret_nonneg hsize hbr
    refine ⟨fun r hr => bucket_ret_nonneg hsize hr, hpoll, ?_, ?_⟩
    · intro hq hd
      obtain ⟨live, spare, hI⟩ := Reachable_Inv hq
      obtain ⟨r, hr⟩ := bucket_returns hI acount hsize hd
      exact ⟨r, hr, bucket_ret_nonneg hsize hr⟩
    · intro hq hbl
      obtain ⟨live, spare, hI⟩ := Reachable_Inv hq
      have hd : DestOk [b] 1 size none :=
        ⟨by simp, by simpa using hbl, fun a ha => by simp at ha⟩
      obtain ⟨r, hr⟩ := bucket_returns hI none hsize hd
      have : circular_queue_poll q b size =
          some { ret := r.ret, queue := r.queue, buffer := r.buffer.headD b } := by
        unfold circular_queue_poll
        rw [hr]
        rfl
      exact ⟨_, this, bucket_ret_nonneg hsize hr⟩

theorem C8_destination_too_small_witness :
    (circular_queue_bucket testQueue [List.replicate 19 7] 1 19 (some 9) (some [4]) =
        some { ret := -1, queue := testQueue, buffer := [List.replicate 19 7],
               acount := some 9, asize := some [4] } ∧
      circular_queue_poll testQueue (List.replicate 19 7) 19 =
        some { ret := -1, queue := testQueue, buffer := List.replicate 19 7 } ∧
      CIRCULAR_QUEUE_ERRNO_LESS_THAN_ELEMENTSIZE = -1) ∧
    (∃ r, circular_queue_bucket testQueue [List.replicate 20 7] 1 20 (some 9) (some [4]) =
        some r ∧ 0 ≤ r.ret) :=
  ⟨(C8_destination_too_small testQueue [List.replicate 19 7] 1 19 (some 9) (some [4])
      (List.replicate 19 7)).1 (by decide),
   ((C8_destination_too_small testQueue [List.replicate 20 7] 1 20 (some 9) (some [4])
      (List.replicate 20 7)).2 (by decide)).2.2.1 (Reachable.configured testQueue_configured)
      ⟨by decide, by decide, by decide⟩⟩

theorem poll_spec {q : circular_queue_t} {x : Nat} {l spare : List Nat}
    (hI : Inv q (x :: l) spare) {size : Nat} (hsize : q.elementsize ≤ size) {b : List Byte}
    (hb : b.length = size) :
    ∃ r, circular_queue_poll q b size = some r ∧
      r.ret = ((bytesAt q.heap x).length : Nat) ∧ r.buffer = pad size (bytesAt q.heap x) ∧
      Inv r.queue l (spare ++ [x]) ∧ r.queue.heap = q.heap ∧
      r.queue.ecount = q.ecount - 1 ∧ r.queue.capacity = q.capacity ∧
      r.queue.elementsize = q.elementsize := by
  have hE : 0 < q.ecount := by
    rw [hI.ecount]; simp
  have hn : 1 = (if (1 : Int) < q.ecount then 1 else q.ecount).toNat := by
    split <;> omega
  obtain ⟨r, hr, hret, hbuf, _, _, hInv, hheap, hec, hcap, hes, _⟩ :=
    bucket_spec hI hsize hE [b] 1 none none 1 hn (by simp)
      (by intro c hc; simp at hc; rw [hc]; exact hb) (by intro a ha; simp at ha)
  refine ⟨{ ret := r.ret, queue := r.queue, buffer := r.buffer.headD b }, ?_, ?_, ?_, ?_,
    hheap, ?_, hcap, hes⟩
  · unfold circular_queue_poll
    rw [hr]
    rfl
  · simpa using hret
  · show r.buffer.headD b = _
    rw [hbuf]
    simp
  · simpa using hInv
  · simpa using hec

theorem offerAll_spec : ∀ (mvs : List (Malloc × List Byte)) (q : circular_queue_t)
    (live spare : List Nat), Inv q live spare →
    (∀ mv ∈ mvs, 1 ≤ mv.2.length ∧ mv.2.length ≤ q.elementsize) →
    ∃ codes q1, offerAll q mvs = some (codes, q1) ∧ codes.length = mvs.length ∧
      (∃ live1 spare1, Inv q1 live1 spare1) ∧
      q1.capacity = q.capacity ∧ q1.elementsize = q.elementsize ∧
      ((∀ mv ∈ mvs, mv.1.space ≠ none ∧ mv.1.element = true) → ∀ c ∈ codes, c = 0) ∧
      ((∀ c ∈ codes, c = 0) →
        contents q1 = (contents q ++ mvs.map fun mv => mv.2).drop
          ((contents q).length + mvs.length - q.capacity.toNat)) := by
  intro mvs
  induction mvs with
  | nil =>
    intro q live spare hI _
    refine ⟨[], q, rfl, rfl, ⟨live, spare, hI⟩, rfl, rfl, fun _ c hc => by simp at hc, ?_⟩
    intro _
    have h1 : (contents q).length ≤ q.capacity.toNat := by
      have := hI.contents_length; have := hI.ecount; have := hI.scount; have := hI.cap
      simp only [List.length_append] at *
      omega
    have h2 : (contents q).length + ([] : List (Malloc × List Byte)).length -
        q.capacity.toNat = 0 := by
      simp only [List.length_nil]; omega
    rw [h2]
    simp
  | cons mv rest ih =>
    intro q live spare hI hv
    obtain ⟨hv1, hv2⟩ := hv mv (List.mem_cons_self _ _)
    obtain ⟨r, ho, hcase⟩ := offer_ok mv.1 hI hv1 hv2 (Nat.le_refl _)
    have hrest : ∀ q2 : circular_queue_t, q2.elementsize = q.elementsize →
        ∀ x ∈ rest, 1 ≤ x.2.length ∧ x.2.length ≤ q2.elementsize := by
      intro q2 he x hx
      rw [he]
      exact hv x (List.mem_cons_of_mem _ hx)
    rcases hcase with ⟨hcode, hq, hm, _, _⟩ | ⟨hcode, live2, spare2, hI2, hcont, hcap, hes, _⟩
    · obtain ⟨codes, q1, hall, hlen, hInv, hc1, he1, _, _⟩ :=
        ih r.2 live spare (by rw [hq]; exact hI) (hrest r.2 (by rw [hq]))
      refine ⟨r.1 :: codes, q1, ?_, by simp [hlen], hInv, by rw [hc1, hq], by rw [he1, hq],
        ?_, ?_⟩
      · simp only [offerAll, Option.bind_eq_bind, ho, Option.some_bind, hall]
      · intro hok
        exfalso
        have := hok mv (List.mem_cons_self _ _)
        rcases hm with hm | hm
        · exact this.1 hm
        · rw [hm] at this
          exact Bool.false_ne_true this.2
      · intro hz
        exfalso
        have := hz r.1 (List.mem_cons_self _ _)
        rw [hcode] at this
        exact absurd this (by decide)
    · obtain ⟨codes, q1, hall, hlen, hInv, hc1, he1, hok1, hz1⟩ :=
        ih r.2 live2 spare2 hI2 (hrest r.2 hes)
      refine ⟨r.1 :: codes, q1, ?_, by simp [hlen], hInv, by rw [hc1, hcap], by rw [he1, hes],
        ?_, ?_⟩
      · simp only [offerAll, Option.bind_eq_bind, ho, Option.some_bind, hall]
      · intro hok c hc
        rcases List.mem_cons.1 hc with h | h
        · rw [h]; exact hcode
        · exact hok1 (fun x hx => hok x (List.mem_cons_of_mem _ hx)) c h
      · intro hz
        have hz2 := hz1 (fun c hc => hz c (List.mem_cons_of_mem _ hc))
        rw [hz2, hI2.contents_eq, hcont, hcap, ← hI.contents_eq, List.take_length]
        have hlen1 : (contents q).length = live.length := by
          rw [hI.contents_eq, List.length_map]
        have h1 : live.length ≤ q.capacity.toNat := by
          have := hI.ecount; have := hI.scount; have := hI.cap
          simp only [List.length_append] at *
          omega
        rw [← hlen1] at h1 ⊢
        generalize contents q = c at h1 ⊢
        generalize q.capacity.toNat = cap at h1 ⊢
        have ha : c.length + 1 - cap ≤ (c ++ [mv.2]).length := by
          simp only [List.length_append, List.length_singleton]; omega
        rw [← List.drop_append_of_le_length ha, List.drop_drop, List.append_assoc,
          List.singleton_append, List.map_cons]
        congr 1
        clear ha
        simp only [List.length_drop, List.length_append, List.length_singleton,
          List.length_map, List.length_cons, List.length_nil]
        omega

theorem pollAll_spec : ∀ (dsts : List (List Byte)) (q : circular_queue_t)
    (live spare : List Nat), Inv q live spare → dsts.length ≤ live.length →
    (∀ d ∈ dsts, q.elementsize ≤ d.length) →
    ∃ q2, pollAll q dsts =
        some (List.zipWith (fun e d => ((e.length : Int), pad d.length e))
          (live.map (bytesAt q.heap)) dsts, q2) ∧
      (∃ live2 spare2, Inv q2 live2 spare2) ∧
      contents q2 = (live.map (bytesAt q.heap)).drop dsts.length ∧
      q2.ecount = q.ecount - (dsts.length : Int) := by
  intro dsts
  induction dsts with
  | nil =>
    intro q live spare hI _ _
    exact ⟨q, by simp [pollAll], ⟨live, spare, hI⟩, by simpa using hI.contents_eq, by simp⟩
  | cons d ds ih =>
    intro q live spare hI hlen hd
    cases live with
    | nil => simp at hlen
    | cons x l =>
      obtain ⟨r, hr, hret, hbuf, hInv, hheap, hec, _, hes⟩ :=
        poll_spec hI (hd d (List.mem_cons_self _ _)) (b := d) rfl
      obtain ⟨q2, hq2, hInv2, hc2, he2⟩ := ih r.queue l (spare ++ [x]) hInv
        (by simpa using hlen)
        (fun c hc => by rw [hes]; exact hd c (List.mem_cons_of_mem _ hc))
      refine ⟨q2, ?_, hInv2, ?_, ?_⟩
      · simp only [pollAll, Option.bind_eq_bind, hr, Option.some_bind, hq2, hret, hbuf, hheap,
          List.map_cons, List.zipWith_cons_cons]
      · rw [hc2, hheap]
        simp
      · rw [he2, hec]
        simp only [List.length_cons]
        push_cast
        ring

/-- C1 (FIFO order): from every reachable empty buffer, offering at most
`capacity` elements, each of a length between 1 and `elementsize`, always
returns; every offer returns 0 when its allocations succeed; and when every
offer has returned 0, polling as many times into destinations of at least
`elementsize` bytes returns, in the order of the offers, each element's length
and leaves its bytes, followed by zero bytes, in the destination, after which
the buffer is empty. -/
theorem C1_fifo_order (q : circular_queue_t) (hq : Reachable q) (hE : q.ecount = 0)
    (mvs : List (Malloc × List Byte)) (hN : (mvs.length : Int) ≤ q.capacity)
    (hv : ∀ mv ∈ mvs, 1 ≤ mv.2.length ∧ mv.2.length ≤ q.elementsize)
    (dsts : List (List Byte)) (hdl : dsts.length = mvs.length)
    (hds : ∀ d ∈ dsts, q.elementsize ≤ d.length) :
    ∃ codes q1, offerAll q mvs = some (codes, q1) ∧ codes.length = mvs.length ∧
      ((∀ mv ∈ mvs, mv.1.space ≠ none ∧ mv.1.element = true) → ∀ c ∈ codes, c = 0) ∧
      ((∀ c ∈ codes, c = 0) →
        ∃ q2, pollAll q1 dsts =
            some (List.zipWith (fun mv d => ((mv.2.length : Int), pad d.length mv.2)) mvs dsts,
              q2) ∧
          q2.ecount = 0 ∧ contents q2 = []) := by
  obtain ⟨live, spare, hI⟩ := Reachable_Inv hq
  obtain ⟨codes, q1, hall, hlen, ⟨live1, spare1, hI1⟩, _, hes, hok, hz⟩ :=
    offerAll_spec mvs q live spare hI hv
  refine ⟨codes, q1, hall, hlen, hok, ?_⟩
  intro hzero
  have hc := hz hzero
  have hc0 : contents q = [] := by
    have := hI.contents_length
    rw [hE] at this
    exact List.length_eq_zero.1 (by omega)
  have hd0 : (contents q).length + mvs.length - q.capacity.toNat = 0 := by
    rw [hc0]
    simp only [List.length_nil]
    omega
  rw [hd0, hc0, List.nil_append, List.drop_zero, hI1.contents_eq] at hc
  have hll : live1.length = mvs.length := by
    have := congrArg List.length hc
    simpa using this
  obtain ⟨q2, hp, _, hc2, he2⟩ := pollAll_spec dsts q1 live1 spare1 hI1
    (by rw [hll, hdl]) (fun d hd => by rw [hes]; exact hds d hd)
  refine ⟨q2, ?_, ?_, ?_⟩
  · rw [hp, hc, List.zipWith_map_left]
  · rw [he2, hI1.ecount, hll, hdl]
    simp
  · rw [hc2, hc, hdl, ← List.length_map mvs (fun mv => mv.2), List.drop_length]

theorem C1_fifo_order_witness :
    ∃ codes q1, offerAll testQueue [(mallocOk, [71, 0]), (mallocOk, [68, 97, 0])] =
        some (codes, q1) ∧ codes.length = 2 ∧
      ((∀ mv ∈ [(mallocOk, [71, 0]), (mallocOk, [68, 97, 0])],
          mv.1.space ≠ none ∧ mv.1.element = true) → ∀ c ∈ codes, c = 0) ∧
      ((∀ c ∈ codes, c = 0) →
        ∃ q2, pollAll q1 [List.replicate 20 9, List.replicate 20 9] =
            some (List.zipWith (fun mv d => ((mv.2.length : Int), pad d.length mv.2))
              [(mallocOk, [71, 0]), (mallocOk, [68, 97, 0])]
              [List.replicate 20 9, List.replicate 20 9], q2) ∧
          q2.ecount = 0 ∧ contents q2 = []) :=
  C1_fifo_order testQueue (Reachable.configured testQueue_configured) (by decide)
    [(mallocOk, [71, 0]), (mallocOk, [68, 97, 0])] (by decide) (by decide)
    [List.replicate 20 9, List.replicate 20 9] (by decide) (by decide)

theorem poll_contents {q : circular_queue_t} {live spare : List Nat} (hI : Inv q live spare)
    {e : List Byte} {rest : List (List Byte)} (hc : contents q = e :: rest) {size : Nat}
    (hsize : q.elementsize ≤ size) {b : List Byte} (hb : b.length = size) :
    ∃ p, circular_queue_poll q b size = some p ∧ p.ret = (e.length : Nat) ∧
      p.buffer = pad size e ∧ contents p.queue = rest ∧ p.queue.ecount = q.ecount - 1 ∧
      p.queue.heap = q.heap := by
  rw [hI.contents_eq] at hc
  cases live with
  | nil => simp at hc
  | cons x l =>
    simp only [List.map_cons, List.cons.injEq] at hc
    obtain ⟨r, hr, hret, hbuf, hInv, hheap, hec, _, _⟩ := poll_spec hI hsize hb
    refine ⟨r, hr, by rw [hret, hc.1], by rw [hbuf, hc.1], ?_, hec, hheap⟩
    rw [hInv.contents_eq, hheap, hc.2]

theorem bucket_contents {q : circular_queue_t} {live spare : List Nat} (hI : Inv q live spare)
    {size : Nat} (hsize : q.elementsize ≤ size) (hE : 0 < q.ecount)
    {buffer : List (List Byte)} {count : Int} (acount : Option Int)
    {asize : Option (List Nat)} (hd : DestOk buffer count size asize) (n : Nat)
    (hn : n = (if count < q.ecount then count else q.ecount).toNat) :
    ∃ r, circular_queue_bucket q buffer count size acount asize = some r ∧
      r.ret = ((((contents q).take n).map List.length).sum : Nat) ∧
      r.buffer = ((contents q).take n).map (pad size) ++ buffer.drop n ∧
      r.acount = acount.map (fun _ => if count < q.ecount then count else q.ecount) ∧
      r.asize = asize.map (fun a => ((contents q).take n).map List.length ++ a.drop n) ∧
      contents r.queue = (contents q).drop n ∧
      r.queue.ecount = q.ecount - (n : Int) ∧ r.queue.heap = q.heap ∧
      (∃ live2 spare2, Inv r.queue live2 spare2) := by
  have hle : n ≤ count.toNat := by rw [hn]; exact mcount_toNat_le count q.ecount
  obtain ⟨r, hr, hret, hbuf, hac, has, hInv, hheap, hec, _⟩ :=
    bucket_spec hI hsize hE buffer count acount asize n hn (le_trans hle hd.1)
      (fun b hb => hd.2.1 b (List.mem_of_mem_take hb))
      (fun a ha => le_trans hle (hd.2.2 a ha))
  have hc := hI.contents_eq
  have h1 : (List.take n (contents q)).map List.length =
      (live.take n).map fun x => (bytesAt q.heap x).length := by
    rw [hc, ← List.map_take, List.map_map]
    rfl
  have h2 : (List.take n (contents q)).map (pad size) =
      (live.take n).map fun x => pad size (bytesAt q.heap x) := by
    rw [hc, ← List.map_take, List.map_map]
    rfl
  refine ⟨r, hr, by rw [hret, h1], by rw [hbuf, h2], hac, by rw [has, h1], ?_, hec, hheap,
    ⟨_, _, hInv⟩⟩
  rw [hInv.contents_eq, hheap, hc, List.map_drop]

/-- C3 (round-trip content integrity): from every reachable empty buffer, an
offer of a byte sequence `v` with `1 ≤ len v ≤ elementsize` returns, and returns
0 when its allocations succeed; after an offer that returned 0, a poll into a
destination of `size ≥ elementsize` bytes returns `len v` and leaves in the
destination exactly `v` followed by `size - len v` zero bytes, whatever the
bytes of `v` and whatever the destination held before. -/
theorem C3_round_trip (q : circular_queue_t) (hq : Reachable q) (hE : q.ecount = 0)
    (m : Malloc) (v : List Byte) (h1 : 1 ≤ v.length) (h2 : v.length ≤ q.elementsize)
    (buffer : List Byte) (size : Nat) (hsize : q.elementsize ≤ size)
    (hb : buffer.length = size) :
    ∃ r, circular_queue_offer m q v v.length = some r ∧
      ((m.space ≠ none ∧ m.element = true) → r.1 = 0) ∧
      (r.1 = 0 →
        ∃ p, circular_queue_poll r.2 buffer size = some p ∧ p.ret = (v.length : Int) ∧
          p.buffer = v ++ List.replicate (size - v.length) 0 ∧ p.queue.ecount = 0) := by
  obtain ⟨live, spare, hI⟩ := Reachable_Inv hq
  obtain ⟨r, ho, hcase⟩ := offer_ok m hI h1 h2 (Nat.le_refl _)
  refine ⟨r, ho, ?_, ?_⟩
  · intro hm
    rcases hcase with ⟨_, _, hf, _⟩ | ⟨h0, _⟩
    · exfalso
      rcases hf with hf | hf
      · exact hm.1 hf
      · rw [hf] at hm
        exact Bool.false_ne_true hm.2
    · exact h0
  · intro h0
    rcases hcase with ⟨hc, _⟩ | ⟨_, live2, spare2, hI2, hcont, _, hes, _⟩
    · rw [hc] at h0
      exact absurd h0 (by decide)
    · have hl : live = [] := by
        have := hI.ecount
        rw [hE] at this
        exact List.length_eq_zero.1 (by omega)
      have hcap := hI.cap_pos
      have hd0 : live.length + 1 - q.capacity.toNat = 0 := by
        rw [hl]; simp only [List.length_nil]; omega
      rw [hd0, hl, List.map_nil, List.nil_append, List.drop_zero, List.take_length,
        ← hI2.contents_eq] at hcont
      obtain ⟨p, hp, hret, hbuf, _, hec, _⟩ :=
        poll_contents hI2 hcont (by rw [hes]; exact hsize) hb
      refine ⟨p, hp, by rw [hret], hbuf, ?_⟩
      have := hI2.contents_length
      rw [hcont] at this
      rw [hec, ← this]
      simp

theorem C3_round_trip_witness :
    ∃ r, circular_queue_offer mallocOk testQueue [74, 0, 109, 0] [74, 0, 109, 0].length =
        some r ∧
      ((mallocOk.space ≠ none ∧ mallocOk.element = true) → r.1 = 0) ∧
      (r.1 = 0 →
        ∃ p, circular_queue_poll r.2 (List.replicate 20 9) 20 = some p ∧
          p.ret = ([74, 0, 109, 0].length : Int) ∧
          p.buffer = [74, 0, 109, 0] ++ List.replicate (20 - [74, 0, 109, 0].length) 0 ∧
          p.queue.ecount = 0) :=
  C3_round_trip testQueue (Reachable.configured testQueue_configured) (by decide) mallocOk
    [74, 0, 109, 0] (by decide) (by decide) (List.replicate 20 9) 20 (by decide) (by decide)

/-- C9 (bulk removal takes a FIFO prefix): from every reachable buffer holding
the elements `contents q`, a bucket call for `K` elements with
`1 ≤ K ≤ ecount` and a per-buffer capacity of at least `elementsize` returns,
leaves the `K` oldest elements, each followed by zero bytes, in the destination
buffers `0..K-1` in queue order, writes their lengths to `asize[0..K-1]` and
`K` to the actual count, lowers `ecount` by `K`, leaves the memory of the ring
untouched and the remaining elements queued in the same order, so that the next
poll returns the element that followed the prefix. -/
theorem C9_bucket_prefix (q : circular_queue_t) (hq : Reachable q) (K : Nat) (hK : 1 ≤ K)
    (hKM : (K : Int) ≤ q.ecount) (buffer : List (List Byte)) (size : Nat)
    (acount : Option Int) (asize : Option (List Nat)) (hsize : q.elementsize ≤ size)
    (hd : DestOk buffer (K : Int) size asize) :
    ∃ r, circular_queue_bucket q buffer (K : Int) size acount asize = some r ∧
      r.buffer = ((contents q).take K).map (pad size) ++ buffer.drop K ∧
      r.asize = asize.map (fun a => ((contents q).take K).map List.length ++ a.drop K) ∧
      r.acount = acount.map (fun _ => (K : Int)) ∧
      r.queue.ecount = q.ecount - (K : Int) ∧
      r.queue.heap = q.heap ∧
      contents r.queue = (contents q).drop K ∧
      ∀ (e : List Byte) (rest : List (List Byte)) (b : List Byte),
        (contents q).drop K = e :: rest → b.length = size →
        ∃ p, circular_queue_poll r.queue b size = some p ∧ p.ret = (e.length : Int) ∧
          p.buffer = pad size e ∧ contents p.queue = rest := by
  obtain ⟨live, spare, hI⟩ := Reachable_Inv hq
  have hE : 0 < q.ecount := by omega
  have hn : K = (if (K : Int) < q.ecount then (K : Int) else q.ecount).toNat := by
    split <;> omega
  have hm : (if (K : Int) < q.ecount then (K : Int) else q.ecount) = (K : Int) := by
    split <;> omega
  obtain ⟨r, hr, _, hbuf, hac, has, hc, hec, hheap, live2, spare2, hI2⟩ :=
    bucket_contents hI hsize hE acount hd K hn
  rw [hm] at hac
  refine ⟨r, hr, hbuf, has, hac, hec, hheap, hc, ?_⟩
  intro e rest b he hb
  have hes : r.queue.elementsize = q.elementsize := by
    obtain ⟨n, _, _, _, _, _, h, _⟩ := bucket_inv hI hr
    exact h
  obtain ⟨p, hp, hret, hpb, hpc, _⟩ :=
    poll_contents hI2 (hc.trans he) (by rw [hes]; exact hsize) hb
  exact ⟨p, hp, by rw [hret], hpb, hpc⟩

theorem afterOffer_reachable {q : circular_queue_t} (h : Reachable q) (v : List Byte) :
    Reachable (afterOffer q v) := by
  unfold afterOffer
  cases ho : circular_queue_offer mallocOk q v v.length with
  | none => exact h
  | some r => exact Reachable.offer mallocOk v v.length r h ho

theorem threeQueue_reachable : Reachable threeQueue :=
  afterOffer_reachable (afterOffer_reachable (afterOffer_reachable
    (Reachable.configured testQueue_configured) _) _) _

theorem C9_bucket_prefix_witness :
    ∃ r, circular_queue_bucket threeQueue [List.replicate 20 9, List.replicate 20 9]
        ((2 : Nat) : Int) 20 (some 7) (some [0, 0]) = some r ∧
      r.buffer = ((contents threeQueue).take 2).map (pad 20) ++
        [List.replicate 20 9, List.replicate 20 9].drop 2 ∧
      r.asize = (some [0, 0]).map
        (fun a => ((contents threeQueue).take 2).map List.length ++ a.drop 2) ∧
      r.acount = (some 7).map (fun _ => ((2 : Nat) : Int)) ∧
      r.queue.ecount = threeQueue.ecount - ((2 : Nat) : Int) ∧
      r.queue.heap = threeQueue.heap ∧
      contents r.queue = (contents threeQueue).drop 2 ∧
      ∀ (e : List Byte) (rest : List (List Byte)) (b : List Byte),
        (contents threeQueue).drop 2 = e :: rest → b.length = 20 →
        ∃ p, circular_queue_poll r.queue b 20 = some p ∧ p.ret = (e.length : Int) ∧
          p.buffer = pad 20 e ∧ contents p.queue = rest :=
  C9_bucket_prefix threeQueue threeQueue_reachable 2 (by decide) (by decide)
    [List.replicate 20 9, List.replicate 20 9] 20 (some 7) (some [0, 0]) (by decide)
    ⟨by decide, by decide, by decide⟩

/-- C2 (overflow eviction): offering `capacity + 1` elements, each of a length
between 1 and `elementsize`, to a freshly configured buffer always returns, and
every offer returns 0 when its allocations succeed; when every offer has
returned 0 the buffer holds exactly the last `capacity` offered elements, and a
bucket call for `capacity` elements with a per-buffer capacity of at least
`elementsize` removes exactly these, in the order of the offers, reports
`capacity` as the actual count and their lengths in `asize`, and leaves the
buffer empty, so that the first offered element can no longer be returned. -/
theorem C2_overflow_eviction (q : circular_queue_t) (hq : Configured q)
    (mvs : List (Malloc × List Byte)) (hlen : (mvs.length : Int) = q.capacity + 1)
    (hv : ∀ mv ∈ mvs, 1 ≤ mv.2.length ∧ mv.2.length ≤ q.elementsize)
    (buffer : List (List Byte)) (size : Nat) (acount : Option Int)
    (asize : Option (List Nat)) (hsize : q.elementsize ≤ size)
    (hd : DestOk buffer q.capacity size asize) :
    ∃ codes q1, offerAll q mvs = some (codes, q1) ∧ codes.length = mvs.length ∧
      ((∀ mv ∈ mvs, mv.1.space ≠ none ∧ mv.1.element = true) → ∀ c ∈ codes, c = 0) ∧
      ((∀ c ∈ codes, c = 0) →
        contents q1 = mvs.tail.map (fun mv => mv.2) ∧
        ∃ r, circular_queue_bucket q1 buffer q.capacity size acount asize = some r ∧
          r.acount = acount.map (fun _ => q.capacity) ∧
          r.buffer = mvs.tail.map (fun mv => pad size mv.2) ++
            buffer.drop q.capacity.toNat ∧
          r.asize = asize.map (fun a =>
            mvs.tail.map (fun mv => mv.2.length) ++ a.drop q.capacity.toNat) ∧
          r.queue.ecount = 0 ∧ contents r.queue = []) := by
  obtain ⟨hI, _⟩ := Inv_of_Configured hq
  obtain ⟨codes, q1, hall, hcl, ⟨live1, spare1, hI1⟩, hcap, hes, hok, hz⟩ :=
    offerAll_spec mvs q [] [] hI hv
  refine ⟨codes, q1, hall, hcl, hok, ?_⟩
  intro hzero
  have hc := hz hzero
  have hc0 : contents q = [] := by rw [hI.contents_eq]; rfl
  have hcp := hI.cap_pos
  have hd1 : (contents q).length + mvs.length - q.capacity.toNat = 1 := by
    rw [hc0]
    simp only [List.length_nil]
    omega
  rw [hd1, hc0, List.nil_append, List.drop_one, ← List.map_tail] at hc
  have hlen1 : (contents q1).length = q.capacity.toNat := by
    rw [hc, List.length_map, List.length_tail]
    omega
  have hec1 : q1.ecount = q.capacity := by
    rw [← hI1.contents_length, hlen1]
    omega
  have hn : q.capacity.toNat = (if q.capacity < q1.ecount then q.capacity else q1.ecount).toNat := by
    rw [hec1]; simp
  have hm : (if q.capacity < q1.ecount then q.capacity else q1.ecount) = q.capacity := by
    rw [hec1]; simp
  obtain ⟨r, hr, _, hbuf, hac, has, hcr, hecr, _⟩ :=
    bucket_contents hI1 (by rw [hes]; exact hsize) (by rw [hec1]; omega) acount hd
      q.capacity.toNat hn
  have htake : (contents q1).take q.capacity.toNat = contents q1 :=
    List.take_of_length_le (by rw [hlen1])
  rw [htake] at hbuf has
  refine ⟨hc, r, hr, by rw [hac, hm], ?_, ?_, ?_, ?_⟩
  · rw [hbuf, hc, List.map_map]
    rfl
  · rw [has, hc, List.map_map]
    rfl
  · rw [hecr, hec1]
    omega
  · rw [hcr]
    exact List.drop_eq_nil_of_le (by rw [hlen1])

theorem C2_overflow_eviction_witness :
    ∃ codes q1, offerAll smallQueue [(mallocOk, [1]), (mallocOk, [2, 0]), (mallocOk, [3, 3, 3])] =
        some (codes, q1) ∧
      codes.length = [(mallocOk, [1]), (mallocOk, [2, 0]), (mallocOk, [3, 3, 3])].length ∧
      ((∀ mv ∈ [(mallocOk, [1]), (mallocOk, [2, 0]), (mallocOk, [3, 3, 3])],
          mv.1.space ≠ none ∧ mv.1.element = true) → ∀ c ∈ codes, c = 0) ∧
      ((∀ c ∈ codes, c = 0) →
        contents q1 =
          [(mallocOk, [1]), (mallocOk, [2, 0]), (mallocOk, [3, 3, 3])].tail.map
            (fun mv => mv.2) ∧
        ∃ r, circular_queue_bucket q1 [[9, 9, 9], [9, 9, 9]] smallQueue.capacity 3 (some 7)
            (some [0, 0]) = some r ∧
          r.acount = (some 7).map (fun _ => smallQueue.capacity) ∧
          r.buffer =
            [(mallocOk, [1]), (mallocOk, [2, 0]), (mallocOk, [3, 3, 3])].tail.map
              (fun mv => pad 3 mv.2) ++
            [[9, 9, 9], [9, 9, 9]].drop smallQueue.capacity.toNat ∧
          r.asize = (some [0, 0]).map (fun a =>
            [(mallocOk, [1]), (mallocOk, [2, 0]), (mallocOk, [3, 3, 3])].tail.map
              (fun mv => mv.2.length) ++ a.drop smallQueue.capacity.toNat) ∧
          r.queue.ecount = 0 ∧ contents r.queue = []) :=
  C2_overflow_eviction smallQueue smallQueue_configured
    [(mallocOk, [1]), (mallocOk, [2, 0]), (mallocOk, [3, 3, 3])] (by decide) (by decide)
    [[9, 9, 9], [9, 9, 9]] 3 (some 7) (some [0, 0]) (by decide)
    ⟨by decide, by decide, by decide⟩

/-- Bucket partial fill on a non-empty buffer: when more elements are requested
than the `ecount ≥ 1` queued ones, all of them are removed in queue order, the
actual count written is `ecount` and the buffer is left empty. -/
theorem bucket_partial_fill (q : circular_queue_t) (hq : Reachable q) (hE : 1 ≤ q.ecount)
    (count : Int) (hK : q.ecount < count) (buffer : List (List Byte)) (size : Nat)
    (acount : Option Int) (asize : Option (List Nat)) (hsize : q.elementsize ≤ size)
    (hd : DestOk buffer count size asize) :
    ∃ r, circular_queue_bucket q buffer count size acount asize = some r ∧
      r.buffer = (contents q).map (pad size) ++ buffer.drop q.ecount.toNat ∧
      r.asize = asize.map (fun a => (contents q).map List.length ++ a.drop q.ecount.toNat) ∧
      r.acount = acount.map (fun _ => q.ecount) ∧
      r.queue.ecount = 0 ∧ contents r.queue = [] := by
  obtain ⟨live, spare, hI⟩ := Reachable_Inv hq
  have hn : q.ecount.toNat = (if count < q.ecount then count else q.ecount).toNat := by
    rw [if_neg (by omega)]
  have hm : (if count < q.ecount then count else q.ecount) = q.ecount := by
    rw [if_neg (by omega)]
  obtain ⟨r, hr, _, hbuf, hac, has, hcr, hecr, _⟩ :=
    bucket_contents hI hsize (by omega) acount hd q.ecount.toNat hn
  have hlen1 : (contents q).length = q.ecount.toNat := by
    have := hI.contents_length
    omega
  have htake : (contents q).take q.ecount.toNat = contents q :=
    List.take_of_length_le (by rw [hlen1])
  rw [htake] at hbuf has
  refine ⟨r, hr, hbuf, has, by rw [hac, hm], by rw [hecr]; omega, ?_⟩
  rw [hcr]
  exact List.drop_eq_nil_of_le (by rw [hlen1])

/-- C10 (bucket partial fill, evaluated on an empty buffer): with no element
queued and one requested, `circular_queue_bucket` returns 0 at its emptiness
test and never writes the actual count: an out-parameter that held 7 still holds
7, not the number 0 of elements retrieved. -/
theorem C10_empty_bucket_keeps_acount :
    smallQueue.ecount = 0 ∧
      circular_queue_bucket smallQueue [[9, 9, 9]] 1 3 (some 7) (some [5]) =
        some { ret := 0, queue := smallQueue, buffer := [[9, 9, 9]], acount := some 7,
               asize := some [5] } := by
  decide

/-! ## Effects of the calls on the fields, from any state -/

theorem offer_frame {m : Malloc} {q : circular_queue_t} {value : List Byte} {length : Nat}
    {r : Int × circular_queue_t} (h : circular_queue_offer m q value length = some r) :
    r.2.capacity = q.capacity ∧ r.2.elementsize = q.elementsize ∧ r.2.mutex = q.mutex ∧
      ((r.2 = q) ∨
       (q.ecount < q.scount ∧ r.2.ecount = q.ecount + 1 ∧ r.2.scount = q.scount) ∨
       (¬ q.ecount < q.scount ∧ q.ecount < q.capacity ∧ r.2.ecount = q.ecount + 1 ∧
          r.2.scount = q.scount + 1) ∨
       (¬ q.ecount < q.scount ∧ ¬ q.ecount < q.capacity ∧ r.2.ecount = q.ecount ∧
          r.2.scount = q.scount)) := by
  unfold circular_queue_offer at h
  split at h
  · simp only [Option.some.injEq] at h
    subst h
    exact ⟨rfl, rfl, rfl, Or.inl rfl⟩
  · split at h
    · simp only [Option.some.injEq] at h
      subst h
      exact ⟨rfl, rfl, rfl, Or.inl rfl⟩
    · split at h
      · rename_i hlt
        simp only [Option.bind_eq_bind, Option.bind_eq_some, Option.some.injEq] at h
        obtain ⟨_, _, _, _, _, _, _, _, h⟩ := h
        subst h
        exact ⟨rfl, rfl, rfl, Or.inr (Or.inl ⟨hlt, rfl, rfl⟩)⟩
      · rename_i hnlt
        split at h
        · rename_i hcap
          split at h
          · simp only [Option.some.injEq] at h
            subst h
            exact ⟨rfl, rfl, rfl, Or.inl rfl⟩
          · simp only [Option.bind_eq_bind, Option.bind_eq_some] at h
            obtain ⟨_, _, h⟩ := h
            split at h
            · simp only [Option.some.injEq] at h
              subst h
              exact ⟨rfl, rfl, rfl, Or.inl rfl⟩
            · split at h
              · simp only [Option.some.injEq] at h
                subst h
                exact ⟨rfl, rfl, rfl, Or.inr (Or.inr (Or.inl ⟨hnlt, hcap, rfl, rfl⟩))⟩
              · simp only [Option.bind_eq_some, Option.some.injEq] at h
                obtain ⟨_, _, _, _, h⟩ := h
                subst h
                exact ⟨rfl, rfl, rfl, Or.inr (Or.inr (Or.inl ⟨hnlt, hcap, rfl, rfl⟩))⟩
        · rename_i hcap
          simp only [Option.bind_eq_bind, Option.bind_eq_some, Option.some.injEq] at h
          obtain ⟨_, _, _, _, _, _, _, _, _, _, h⟩ := h
          subst h
          exact ⟨rfl, rfl, rfl, Or.inr (Or.inr (Or.inr ⟨hnlt, hcap, rfl, rfl⟩))⟩

theorem bucketLoop_frame (size : Nat) :
    ∀ (n i : Nat) (s s2 : BucketLoop), bucketLoop size n i s = some s2 →
      s2.queue.heap = s.queue.heap ∧ s2.queue.ecount = s.queue.ecount - (n : Int) ∧
      s2.queue.scount = s.queue.scount ∧ s2.queue.capacity = s.queue.capacity ∧
      s2.queue.elementsize = s.queue.elementsize ∧ s2.queue.storage = s.queue.storage ∧
      s2.queue.rear = s.queue.rear ∧ s2.queue.mutex = s.queue.mutex := by
  intro n
  induction n with
  | zero =>
    intro i s s2 h
    simp only [bucketLoop, Option.some.injEq] at h
    subst h
    simp
  | succ n ih =>
    intro i s s2 h
    rw [bucketLoop] at h
    simp only [Option.bind_eq_bind, Option.bind_eq_some] at h
    obtain ⟨_, _, _, _, _, _, _, _, _, _, hrec⟩ := h
    obtain ⟨h1, h2, h3, h4, h5, h6, h7, h8⟩ := ih _ _ _ hrec
    refine ⟨h1, ?_, h3, h4, h5, h6, h7, h8⟩
    rw [h2]
    push_cast
    ring

theorem bucket_frame {q : circular_queue_t} {buffer : List (List Byte)} {count : Int}
    {size : Nat} {acount : Option Int} {asize : Option (List Nat)} {r : BucketResult}
    (h : circular_queue_bucket q buffer count size acount asize = some r) :
    r.queue.heap = q.heap ∧ r.queue.scount = q.scount ∧ r.queue.capacity = q.capacity ∧
      r.queue.elementsize = q.elementsize ∧ r.queue.storage = q.storage ∧
      r.queue.rear = q.rear ∧ r.queue.mutex = q.mutex ∧
      ∃ n : Nat, r.queue.ecount = q.ecount - (n : Int) ∧ ((n : Int) ≤ q.ecount ∨ n = 0) := by
  unfold circular_queue_bucket at h
  split at h
  · simp only [Option.some.injEq] at h
    subst h
    exact ⟨rfl, rfl, rfl, rfl, rfl, rfl, rfl, 0, by simp, Or.inr rfl⟩
  · split at h
    · simp only [Option.some.injEq] at h
      subst h
      exact ⟨rfl, rfl, rfl, rfl, rfl, rfl, rfl, 0, by simp, Or.inr rfl⟩
    · simp only [Option.map_eq_some'] at h
      obtain ⟨s2, hloop, hr⟩ := h
      obtain ⟨h1, h2, h3, h4, h5, h6, h7, h8⟩ := bucketLoop_frame size _ _ _ _ hloop
      subst hr
      refine ⟨h1, h3, h4, h5, h6, h7, h8, _, h2, ?_⟩
      left
      split <;> omega

theorem poll_frame {q : circular_queue_t} {buffer : List Byte} {size : Nat} {r : PollResult}
    (h : circular_queue_poll q buffer size = some r) :
    r.queue.heap = q.heap ∧ r.queue.scount = q.scount ∧ r.queue.capacity = q.capacity ∧
      r.queue.elementsize = q.elementsize ∧ r.queue.storage = q.storage ∧
      r.queue.rear = q.rear ∧ r.queue.mutex = q.mutex ∧
      ∃ n : Nat, r.queue.ecount = q.ecount - (n : Int) ∧ ((n : Int) ≤ q.ecount ∨ n = 0) := by
  unfold circular_queue_poll at h
  simp only [Option.map_eq_some'] at h
  obtain ⟨br, hb, hr⟩ := h
  subst hr
  exact bucket_frame hb

theorem offer_countInv {m : Malloc} {q : circular_queue_t} {value : List Byte} {length : Nat}
    {r : Int × circular_queue_t} (hc : CountInv q)
    (h : circular_queue_offer m q value length = some r) : CountInv r.2 := by
  obtain ⟨hcap, _, _, hcase⟩ := offer_frame h
  obtain ⟨h0, h1, h2⟩ := hc
  unfold CountInv
  rw [hcap]
  rcases hcase with he | ⟨hlt, he, hs⟩ | ⟨hnlt, hlt, he, hs⟩ | ⟨_, _, he, hs⟩
  · rw [he]; exact ⟨h0, h1, h2⟩
  · rw [he, hs]; omega
  · rw [he, hs]; omega
  · rw [he, hs]; exact ⟨h0, h1, h2⟩

theorem bucket_countInv {q : circular_queue_t} {buffer : List (List Byte)} {count : Int}
    {size : Nat} {acount : Option Int} {asize : Option (List Nat)} {r : BucketResult}
    (hc : CountInv q)
    (h : circular_queue_bucket q buffer count size acount asize = some r) :
    CountInv r.queue := by
  obtain ⟨_, hs, hcap, _, _, _, _, n, he, hn⟩ := bucket_frame h
  obtain ⟨h0, h1, h2⟩ := hc
  unfold CountInv
  rw [hs, hcap, he]
  omega

theorem poll_countInv {q : circular_queue_t} {buffer : List Byte} {size : Nat}
    {r : PollResult} (hc : CountInv q) (h : circular_queue_poll q buffer size = some r) :
    CountInv r.queue := by
  obtain ⟨_, hs, hcap, _, _, _, _, n, he, hn⟩ := poll_frame h
  obtain ⟨h0, h1, h2⟩ := hc
  unfold CountInv
  rw [hs, hcap, he]
  omega

theorem Inv.countInv {q : circular_queue_t} {live spare : List Nat} (hI : Inv q live spare) :
    CountInv q := by
  have h1 := hI.ecount
  have h2 := hI.scount
  have h3 := hI.cap
  unfold CountInv
  simp only [List.length_append] at h2
  omega

/-- C12 (count invariant): `0 ≤ ecount ≤ scount ≤ capacity` holds in every
configured queue (after `circular_queue_init`, `circular_queue_setcapacity` with
a capacity of at least 1 and `circular_queue_setelementsize`) and in every
reachable one, and from any state in which it holds it holds again after every
offer (accepted, rejected or failed on allocation), poll and bucket call that
returns, whatever the arguments. -/
theorem C12_count_invariant (q : circular_queue_t) :
    (Configured q → CountInv q) ∧ (Reachable q → CountInv q) ∧
    (CountInv q →
      (∀ (m : Malloc) (value : List Byte) (length : Nat) (r : Int × circular_queue_t),
        circular_queue_offer m q value length = some r → CountInv r.2) ∧
      (∀ (buffer : List Byte) (size : Nat) (r : PollResult),
        circular_queue_poll q buffer size = some r → CountInv r.queue) ∧
      (∀ (buffer : List (List Byte)) (count : Int) (size : Nat) (acount : Option Int)
          (asize : Option (List Nat)) (r : BucketResult),
        circular_queue_bucket q buffer count size acount asize = some r →
          CountInv r.queue)) := by
  refine ⟨fun h => (Inv_of_Configured h).1.countInv, ?_, ?_⟩
  · intro h
    obtain ⟨live, spare, hI⟩ := Reachable_Inv h
    exact hI.countInv
  · intro hc
    exact ⟨fun _ _ _ _ h => offer_countInv hc h, fun _ _ _ h => poll_countInv hc h,
      fun _ _ _ _ _ _ h => bucket_countInv hc h⟩

theorem C12_count_invariant_witness :
    CountInv testQueue ∧ CountInv threeQueue ∧
    (∃ r, circular_queue_offer mallocFail threeQueue [5, 0] 2 = some r ∧ CountInv r.2) ∧
    (∃ r, circular_queue_bucket threeQueue [List.replicate 20 0] 1 20 none none = some r ∧
      CountInv r.queue) :=
  ⟨(C12_count_invariant testQueue).1 testQueue_configured,
   (C12_count_invariant threeQueue).2.1 threeQueue_reachable,
   ⟨_, rfl, ((C12_count_invariant threeQueue).2.2 ⟨by decide, by decide, by decide⟩).1 mallocFail [5, 0] 2 _ rfl⟩,
   ⟨_, rfl, ((C12_count_invariant threeQueue).2.2 ⟨by decide, by decide, by decide⟩).2.2 [List.replicate 20 0] 1 20
      none none _ rfl⟩⟩

/-- C14 (allocation failure is atomic): in every state with
`ecount = scount < capacity`, and so in every reachable one, an offer of an
element of a length between 1 and `elementsize` for which either `malloc` fails
returns `CIRCULAR_QUEUE_ERRNO_OUT_OF_MAMORY`, which is -2, and the state after
the call is exactly the state before it. -/
theorem C14_allocation_failure_atomic (q : circular_queue_t) (heq : q.ecount = q.scount)
    (hlt : q.scount < q.capacity) (m : Malloc) (value : List Byte) (length : Nat)
    (h1 : 1 ≤ length) (h2 : length ≤ q.elementsize) (h3 : length ≤ value.length)
    (hm : m.space = none ∨ m.element = false) :
    circular_queue_offer m q value length = some (CIRCULAR_QUEUE_ERRNO_OUT_OF_MAMORY, q) ∧
      CIRCULAR_QUEUE_ERRNO_OUT_OF_MAMORY = -2 :=
  ⟨offer_alloc_fail h1 h2 h3 (by omega) (by omega) hm, rfl⟩

theorem C14_allocation_failure_atomic_witness :
    (circular_queue_offer ⟨some fun _ => 0, false⟩ threeQueue [5, 0] 2 =
        some (CIRCULAR_QUEUE_ERRNO_OUT_OF_MAMORY, threeQueue) ∧
      CIRCULAR_QUEUE_ERRNO_OUT_OF_MAMORY = -2) ∧
    (circular_queue_offer mallocFail testQueue [5, 0] 2 =
        some (CIRCULAR_QUEUE_ERRNO_OUT_OF_MAMORY, testQueue) ∧
      CIRCULAR_QUEUE_ERRNO_OUT_OF_MAMORY = -2) :=
  ⟨C14_allocation_failure_atomic threeQueue (by decide) (by decide) ⟨some fun _ => 0, false⟩
    [5, 0] 2 (by decide) (by decide) (by decide) (Or.inr rfl),
   C14_allocation_failure_atomic testQueue (by decide) (by decide) mallocFail
    [5, 0] 2 (by decide) (by decide) (by decide) (Or.inl rfl)⟩

theorem Steps_scount {q q2 : circular_queue_t} (h : Steps q q2) : q.scount ≤ q2.scount := by
  induction h with
  | refl => exact le_refl _
  | offer m value length r _ ho ih =>
    obtain ⟨_, _, _, hcase⟩ := offer_frame ho
    rcases hcase with he | ⟨_, _, hs⟩ | ⟨_, _, _, hs⟩ | ⟨_, _, _, hs⟩
    · rw [he]; exact ih
    · rw [hs]; exact ih
    · rw [hs]; omega
    · rw [hs]; exact ih
  | poll buffer size r _ hp ih =>
    rw [(poll_frame hp).2.1]; exact ih
  | bucket buffer count size acount asize r _ hb ih =>
    rw [(bucket_frame hb).2.1]; exact ih

/-- C15 (removal never shrinks storage): from every state, a bucket or poll
call that returns, with a result or with an error code, leaves `scount`,
`capacity`, `elementsize`, `storage`, `rear` and the whole memory of the ring, so
every `next` link, as they were; and over any sequence of offer, poll and bucket
calls `scount` never decreases. -/
theorem C15_removal_keeps_storage (q : circular_queue_t) :
    (∀ (buffer : List (List Byte)) (count : Int) (size : Nat) (acount : Option Int)
        (asize : Option (List Nat)) (r : BucketResult),
      circular_queue_bucket q buffer count size acount asize = some r →
        r.queue.scount = q.scount ∧ r.queue.capacity = q.capacity ∧
        r.queue.elementsize = q.elementsize ∧ r.queue.storage = q.storage ∧
        r.queue.rear = q.rear ∧ r.queue.heap = q.heap ∧
        ∀ a, nextOf r.queue.heap a = nextOf q.heap a) ∧
    (∀ (buffer : List Byte) (size : Nat) (r : PollResult),
      circular_queue_poll q buffer size = some r →
        r.queue.scount = q.scount ∧ r.queue.capacity = q.capacity ∧
        r.queue.elementsize = q.elementsize ∧ r.queue.storage = q.storage ∧
        r.queue.rear = q.rear ∧ r.queue.heap = q.heap ∧
        ∀ a, nextOf r.queue.heap a = nextOf q.heap a) ∧
    (∀ q2, Steps q q2 → q.scount ≤ q2.scount) := by
  refine ⟨?_, ?_, fun _ h => Steps_scount h⟩
  · intro buffer count size acount asize r h
    obtain ⟨h1, h2, h3, h4, h5, h6, _⟩ := bucket_frame h
    exact ⟨h2, h3, h4, h5, h6, h1, fun a => by rw [h1]⟩
  · intro buffer size r h
    obtain ⟨h1, h2, h3, h4, h5, h6, _⟩ := poll_frame h
    exact ⟨h2, h3, h4, h5, h6, h1, fun a => by rw [h1]⟩

theorem C15_removal_keeps_storage_witness :
    (∃ r, circular_queue_bucket threeQueue
        [List.replicate 20 0, List.replicate 20 0, List.replicate 20 0] 3 20 none none =
          some r ∧
      r.queue.scount = threeQueue.scount ∧ r.queue.capacity = threeQueue.capacity ∧
      r.queue.elementsize = threeQueue.elementsize ∧ r.queue.storage = threeQueue.storage ∧
      r.queue.rear = threeQueue.rear ∧ r.queue.heap = threeQueue.heap ∧
      ∀ a, nextOf r.queue.heap a = nextOf threeQueue.heap a) ∧
    testQueue.scount ≤ threeQueue.scount :=
  ⟨⟨_, rfl, (C15_removal_keeps_storage threeQueue).1
      [List.replicate 20 0, List.replicate 20 0, List.replicate 20 0] 3 20 none none _ rfl⟩,
   (C15_removal_keeps_storage testQueue).2.2 threeQueue
     (Steps.offer mallocOk [69, 0, 118, 0] 4 _
       (Steps.offer mallocOk [68, 97, 0] 3 _
         (Steps.offer mallocOk [71, 0] 2 _ (Steps.refl testQueue) rfl) rfl) rfl)⟩

theorem offer_returns {q : circular_queue_t} {live spare : List Nat} (hI : Inv q live spare)
    (m : Malloc) {value : List Byte} {length : Nat} (h3 : length ≤ value.length) :
    ∃ r, circular_queue_offer m q value length = some r := by
  by_cases h2 : q.elementsize < length
  · exact ⟨_, by unfold circular_queue_offer; rw [if_pos h2]⟩
  · by_cases h1 : length ≤ 0
    · exact ⟨_, by unfold circular_queue_offer; rw [if_neg h2, if_pos h1]⟩
    · obtain ⟨r, hr, _⟩ := offer_ok m hI (by omega) (by omega) h3
      exact ⟨r, hr⟩

theorem lockedQueue_reachable : Reachable lockedQueue :=
  Reachable.lock (0, lockedQueue) threeQueue_reachable rfl

/-- C16 (no self-synchronisation): with the mutex modelled as a lock-state field,
every offer, poll and bucket call that returns leaves that field as it was;
`circular_queue_lock` returns exactly when the mutex is free and leaves it held,
`circular_queue_unlock` releases a held mutex; and in every reachable state in
which the mutex is held, offer, bucket and poll still return and leave it held. -/
theorem C16_no_self_synchronisation (q : circular_queue_t) :
    (∀ (m : Malloc) (value : List Byte) (length : Nat) (r : Int × circular_queue_t),
      circular_queue_offer m q value length = some r → r.2.mutex = q.mutex) ∧
    (∀ (buffer : List Byte) (size : Nat) (r : PollResult),
      circular_queue_poll q buffer size = some r → r.queue.mutex = q.mutex) ∧
    (∀ (buffer : List (List Byte)) (count : Int) (size : Nat) (acount : Option Int)
        (asize : Option (List Nat)) (r : BucketResult),
      circular_queue_bucket q buffer count size acount asize = some r →
        r.queue.mutex = q.mutex) ∧
    (∀ r, circular_queue_lock q = some r →
      q.mutex = mutex_t.unlocked ∧ r.2.mutex = mutex_t.locked) ∧
    (∀ r, circular_queue_unlock q = some r →
      q.mutex = mutex_t.locked ∧ r.2.mutex = mutex_t.unlocked) ∧
    (q.mutex = mutex_t.unlocked → ∃ r, circular_queue_lock q = some r) ∧
    (Reachable q → q.mutex = mutex_t.locked →
      (∀ (m : Malloc) (value : List Byte) (length : Nat), length ≤ value.length →
        ∃ r, circular_queue_offer m q value length = some r ∧ r.2.mutex = mutex_t.locked) ∧
      (∀ (buffer : List (List Byte)) (count : Int) (size : Nat) (acount : Option Int)
          (asize : Option (List Nat)), q.elementsize ≤ size →
          DestOk buffer count size asize →
        ∃ r, circular_queue_bucket q buffer count size acount asize = some r ∧
          r.queue.mutex = mutex_t.locked) ∧
      (∀ (buffer : List Byte) (size : Nat), q.elementsize ≤ size → buffer.length = size →
        ∃ r, circular_queue_poll q buffer size = some r ∧
          r.queue.mutex = mutex_t.locked)) := by
  refine ⟨fun _ _ _ _ h => (offer_frame h).2.2.1, fun _ _ _ h => (poll_frame h).2.2.2.2.2.2.1,
    fun _ _ _ _ _ _ h => (bucket_frame h).2.2.2.2.2.2.1, ?_, ?_, ?_, ?_⟩
  · intro r h
    unfold circular_queue_lock at h
    split at h
    · rename_i hm
      simp only [Option.some.injEq] at h
      subst h
      exact ⟨hm, rfl⟩
    · simp at h
  · intro r h
    unfold circular_queue_unlock at h
    split at h
    · rename_i hm
      simp only [Option.some.injEq] at h
      subst h
      exact ⟨hm, rfl⟩
    · simp at h
  · intro hm
    unfold circular_queue_lock
    rw [hm]
    exact ⟨_, rfl⟩
  · intro hq hm
    obtain ⟨live, spare, hI⟩ := Reachable_Inv hq
    refine ⟨?_, ?_, ?_⟩
    · intro m value length h3
      obtain ⟨r, hr⟩ := offer_returns hI m h3
      exact ⟨r, hr, by rw [(offer_frame hr).2.2.1, hm]⟩
    · intro buffer count size acount asize hsize hd
      obtain ⟨r, hr⟩ := bucket_returns hI acount hsize hd
      exact ⟨r, hr, by rw [(bucket_frame hr).2.2.2.2.2.2.1, hm]⟩
    · intro buffer size hsize hb
      have hd : DestOk [buffer] 1 size none :=
        ⟨by simp, by simpa using hb, fun a ha => by simp at ha⟩
      obtain ⟨r, hr⟩ := bucket_returns hI none hsize hd
      have hp : circular_queue_poll q buffer size =
          some { ret := r.ret, queue := r.queue, buffer := r.buffer.headD buffer } := by
        unfold circular_queue_poll
        rw [hr]
        rfl
      exact ⟨_, hp, by
        show r.queue.mutex = _
        rw [(bucket_frame hr).2.2.2.2.2.2.1, hm]⟩

theorem C16_no_self_synchronisation_witness :
    (∃ r, circular_queue_lock threeQueue = some r) ∧
    (∃ r, circular_queue_offer mallocOk lockedQueue [5, 0] 2 = some r ∧
      r.2.mutex = mutex_t.locked) ∧
    (∃ r, circular_queue_poll lockedQueue (List.replicate 20 0) 20 = some r ∧
      r.queue.mutex = mutex_t.locked) ∧
    (∃ r, circular_queue_unlock lockedQueue = some r ∧
      lockedQueue.mutex = mutex_t.locked ∧ r.2.mutex = mutex_t.unlocked) :=
  ⟨(C16_no_self_synchronisation threeQueue).2.2.2.2.2.1 (by decide),
   ((C16_no_self_synchronisation lockedQueue).2.2.2.2.2.2 lockedQueue_reachable
      (by decide)).1 mallocOk [5, 0] 2 (by decide),
   ((C16_no_self_synchronisation lockedQueue).2.2.2.2.2.2 lockedQueue_reachable
      (by decide)).2.2 (List.replicate 20 0) 20 (by decide) (by decide),
   ⟨_, rfl, (C16_no_self_synchronisation lockedQueue).2.2.2.2.1 _ rfl⟩⟩

/-- Outside the allocating branch the result of an offer does not depend on the
outcome of `malloc`: no allocation is requested. -/
theorem offer_malloc_irrelevant (m m2 : Malloc) {q : circular_queue_t} (value : List Byte)
    (length : Nat) (h : q.ecount < q.scount ∨ ¬ q.ecount < q.capacity) :
    circular_queue_offer m q value length = circular_queue_offer m2 q value length := by
  unfold circular_queue_offer
  by_cases h1 : q.elementsize < length
  · rw [if_pos h1, if_pos h1]
  · rw [if_neg h1, if_neg h1]
    by_cases h2 : length ≤ 0
    · rw [if_pos h2, if_pos h2]
    · rw [if_neg h2, if_neg h2]
      by_cases h3 : q.ecount < q.scount
      · rw [if_pos h3, if_pos h3]
      · rw [if_neg h3, if_neg h3]
        have h4 : ¬ q.ecount < q.capacity := by
          rcases h with h | h
          · exact absurd h h3
          · exact h
        rw [if_neg h4, if_neg h4]

theorem offer_reuse_heap_length {m : Malloc} {q : circular_queue_t} {value : List Byte}
    {length : Nat} {r : Int × circular_queue_t} (hlt : q.ecount < q.scount)
    (h : circular_queue_offer m q value length = some r) :
    r.2.heap.length = q.heap.length := by
  unfold circular_queue_offer at h
  split at h
  · simp only [Option.some.injEq] at h
    subst h; rfl
  · split at h
    · simp only [Option.some.injEq] at h
      subst h; rfl
    · simp only [Option.bind_eq_bind, Option.bind_eq_some, Option.some.injEq] at h
      obtain ⟨_, _, _, _, _, _, _, _, h⟩ := h
      subst h
      exact store_length _ _ _

theorem offerAll_reuse : ∀ (mvs : List (Malloc × List Byte)) (q : circular_queue_t)
    (live spare : List Nat), Inv q live spare → mvs.length ≤ spare.length →
    (∀ mv ∈ mvs, 1 ≤ mv.2.length ∧ mv.2.length ≤ q.elementsize) →
    ∃ q1, offerAll q mvs = some (List.replicate mvs.length 0, q1) ∧
      (∀ f : Malloc → Malloc, offerAll q (mvs.map fun mv => (f mv.1, mv.2)) = offerAll q mvs) ∧
      q1.scount = q.scount ∧ q1.heap.length = q.heap.length := by
  intro mvs
  induction mvs with
  | nil =>
    intro q live spare _ _ _
    exact ⟨q, rfl, fun _ => rfl, rfl, rfl⟩
  | cons mv rest ih =>
    intro q live spare hI hlen hv
    cases spare with
    | nil => simp at hlen
    | cons y sp =>
      obtain ⟨hv1, hv2⟩ := hv mv (List.mem_cons_self _ _)
      obtain ⟨q2, ho, hI2, _, _, _, hes, hsc, _⟩ := offer_reuse mv.1 hI hv1 hv2 (Nat.le_refl _)
      have hlt : q.ecount < q.scount := by
        rw [hI.ecount, hI.scount]; simp
      obtain ⟨q1, hall, hf, hs1, hh1⟩ := ih q2 (live ++ [y]) sp hI2 (by simpa using hlen)
        (fun x hx => by rw [hes]; exact hv x (List.mem_cons_of_mem _ hx))
      refine ⟨q1, ?_, ?_, by rw [hs1, hsc], ?_⟩
      · simp only [offerAll, Option.bind_eq_bind, ho, Option.some_bind, hall,
          List.length_cons, List.replicate_succ]
      · intro f
        simp only [List.map_cons, offerAll, Option.bind_eq_bind]
        rw [offer_malloc_irrelevant (f mv.1) mv.1 mv.2 mv.2.length (Or.inl hlt), ho]
        simp only [Option.some_bind, hf f]
      · rw [hh1]
        exact offer_reuse_heap_length hlt ho

/-- C13 (reclamation reuse): from every reachable state with `ecount = 0` and
`scount = S`, `S` offers of elements of a length between 1 and `elementsize` all
return 0 whatever the outcome of `malloc`, also with an allocator that always
fails: the result does not depend on the allocator and the memory holds no new
block; `scount` is still `S` afterwards and the `S` elements are queued and
polled in the order of the offers. -/
theorem C13_reclamation_reuse (q : circular_queue_t) (hq : Reachable q) (hE : q.ecount = 0)
    (mvs : List (Malloc × List Byte)) (hlen : (mvs.length : Int) = q.scount)
    (hv : ∀ mv ∈ mvs, 1 ≤ mv.2.length ∧ mv.2.length ≤ q.elementsize)
    (dsts : List (List Byte)) (hdl : dsts.length = mvs.length)
    (hds : ∀ d ∈ dsts, q.elementsize ≤ d.length) :
    ∃ q1, offerAll q mvs = some (List.replicate mvs.length 0, q1) ∧
      (∀ f : Malloc → Malloc,
        offerAll q (mvs.map fun mv => (f mv.1, mv.2)) = offerAll q mvs) ∧
      offerAll q (mvs.map fun mv => (mallocFail, mv.2)) =
        some (List.replicate mvs.length 0, q1) ∧
      q1.scount = q.scount ∧ q1.heap.length = q.heap.length ∧
      contents q1 = mvs.map (fun mv => mv.2) ∧
      ∃ q2, pollAll q1 dsts =
          some (List.zipWith (fun mv d => ((mv.2.length : Int), pad d.length mv.2)) mvs dsts,
            q2) ∧
        q2.ecount = 0 := by
  obtain ⟨live, spare, hI⟩ := Reachable_Inv hq
  have hl : live = [] := by
    have := hI.ecount
    rw [hE] at this
    exact List.length_eq_zero.1 (by omega)
  subst hl
  have hsp : mvs.length = spare.length := by
    have := hI.scount
    simp only [List.nil_append] at this
    omega
  obtain ⟨q1, hall, hf, hs1, hh1⟩ := offerAll_reuse mvs q [] spare hI (by omega) hv
  obtain ⟨codes, q1b, hall2, _, ⟨live1, spare1, hI1⟩, _, hes, _, hz⟩ :=
    offerAll_spec mvs q [] spare hI hv
  rw [hall] at hall2
  simp only [Option.some.injEq, Prod.mk.injEq] at hall2
  obtain ⟨hcodes, hq1⟩ := hall2
  subst hq1
  have hc := hz (by
    intro c hc
    rw [← hcodes] at hc
    exact (List.mem_replicate.1 hc).2)
  have hc0 : contents q = [] := by rw [hI.contents_eq]; rfl
  have hd0 : (contents q).length + mvs.length - q.capacity.toNat = 0 := by
    have := hI.scount; have := hI.cap
    simp only [List.nil_append] at *
    rw [hc0]
    simp only [List.length_nil]
    omega
  rw [hd0, hc0, List.nil_append, List.drop_zero, hI1.contents_eq] at hc
  have hll : live1.length = mvs.length := by
    have := congrArg List.length hc
    simpa using this
  obtain ⟨q2, hp, _, _, he2⟩ := pollAll_spec dsts q1 live1 spare1 hI1
    (by rw [hll, hdl]) (fun d hd => by rw [hes]; exact hds d hd)
  refine ⟨q1, hall, hf, ?_, hs1, hh1, ?_, q2, ?_, ?_⟩
  · rw [hf (fun _ => mallocFail), hall]
  · rw [hI1.contents_eq, hc]
  · rw [hp, hc, List.zipWith_map_left]
  · rw [he2, hI1.ecount, hll, hdl]
    simp

theorem drainedQueue_reachable : Reachable drainedQueue := by
  unfold drainedQueue
  cases h : circular_queue_bucket threeQueue
      [List.replicate 20 0, List.replicate 20 0, List.replicate 20 0] 3 20 none none with
  | none => exact threeQueue_reachable
  | some r => exact Reachable.bucket _ _ _ _ _ r threeQueue_reachable h

theorem C13_reclamation_reuse_witness :
    ∃ q1, offerAll drainedQueue [(mallocFail, [1, 0]), (mallocFail, [2]), (mallocFail, [3, 3])] =
        some (List.replicate
          [(mallocFail, [1, 0]), (mallocFail, [2]), (mallocFail, ([3, 3] : List Byte))].length 0,
          q1) ∧
      (∀ f : Malloc → Malloc,
        offerAll drainedQueue
          ([(mallocFail, [1, 0]), (mallocFail, [2]), (mallocFail, [3, 3])].map
            fun mv => (f mv.1, mv.2)) =
        offerAll drainedQueue [(mallocFail, [1, 0]), (mallocFail, [2]), (mallocFail, [3, 3])]) ∧
      offerAll drainedQueue
          ([(mallocFail, [1, 0]), (mallocFail, [2]), (mallocFail, [3, 3])].map
            fun mv => (mallocFail, mv.2)) =
        some (List.replicate
          [(mallocFail, [1, 0]), (mallocFail, [2]), (mallocFail, ([3, 3] : List Byte))].length 0,
          q1) ∧
      q1.scount = drainedQueue.scount ∧ q1.heap.length = drainedQueue.heap.length ∧
      contents q1 =
        [(mallocFail, [1, 0]), (mallocFail, [2]), (mallocFail, [3, 3])].map (fun mv => mv.2) ∧
      ∃ q2, pollAll q1 [List.replicate 20 9, List.replicate 20 9, List.replicate 20 9] =
          some (List.zipWith (fun mv d => ((mv.2.length : Int), pad d.length mv.2))
            [(mallocFail, [1, 0]), (mallocFail, [2]), (mallocFail, [3, 3])]
            [List.replicate 20 9, List.replicate 20 9, List.replicate 20 9], q2) ∧
        q2.ecount = 0 :=
  C13_reclamation_reuse drainedQueue drainedQueue_reachable (by decide)
    [(mallocFail, [1, 0]), (mallocFail, [2]), (mallocFail, [3, 3])] (by decide) (by decide)
    [List.replicate 20 9, List.replicate 20 9, List.replicate 20 9] (by decide) (by decide)

theorem Path_rotate_to {nx : Nat → Ptr} {ring : List Nat} {f : Ptr} {s : Nat}
    (h : Path nx f ring f) (hs : s ∈ ring) :
    ∃ pre post, ring = pre ++ s :: post ∧
      Path nx (some s) (s :: post ++ pre) (some s) := by
  obtain ⟨pre, post, hring⟩ := List.append_of_mem hs
  refine ⟨pre, post, hring, ?_⟩
  rw [hring] at h
  obtain ⟨m, h1, h2⟩ := Path_append.1 h
  have hm : m = some s := h2.1
  subst hm
  exact Path_append.2 ⟨f, h2, h1⟩

theorem cell_set_none_ne {heap : List (Option circular_queue_element_t)} {a b : Nat}
    (h : a ≠ b) : cell (heap.set a none) b = cell heap b := by
  simp [cell, List.getElem?_set, h]

theorem cell_set_none_self (heap : List (Option circular_queue_element_t)) (a : Nat) :
    cell (heap.set a none) a = none := by
  unfold cell
  rw [List.getElem?_set]
  split
  · split <;> rfl
  · rename_i h; exact absurd rfl h

theorem cell_freeAll_not_mem {xs : List Nat} :
    ∀ {heap : List (Option circular_queue_element_t)} {b : Nat}, b ∉ xs →
      cell (freeAll heap xs) b = cell heap b := by
  induction xs with
  | nil => intro heap b _; rfl
  | cons x xs ih =>
    intro heap b hb
    have hbx : x ≠ b := fun h => hb (h ▸ List.mem_cons_self _ _)
    have hbxs : b ∉ xs := fun h => hb (List.mem_cons_of_mem _ h)
    show cell (freeAll (heap.set x none) xs) b = _
    rw [ih hbxs, cell_set_none_ne hbx]

theorem cell_freeAll_mem {xs : List Nat} :
    ∀ {heap : List (Option circular_queue_element_t)} {b : Nat}, xs.Nodup → b ∈ xs →
      cell (freeAll heap xs) b = none := by
  induction xs with
  | nil => intro heap b _ hb; simp at hb
  | cons x xs ih =>
    intro heap b hnd hb
    obtain ⟨hx, hnd2⟩ := List.nodup_cons.1 hnd
    show cell (freeAll (heap.set x none) xs) b = _
    rcases List.mem_cons.1 hb with h | h
    · subst h
      rw [cell_freeAll_not_mem hx]
      exact cell_set_none_self _ _
    · exact ih hnd2 h

theorem destroyLoop_spec : ∀ (xs : List Nat) (q : circular_queue_t) (p : Ptr), xs.Nodup →
    Path (nextOf q.heap) q.storage xs p → (∀ a ∈ xs, ∃ e, cell q.heap a = some e) →
    destroyLoop xs.length q =
      some { q with storage := p, heap := freeAll q.heap xs,
                    scount := q.scount - (xs.length : Int) } := by
  intro xs
  induction xs with
  | nil =>
    intro q p _ hp _
    have hp2 : q.storage = p := hp
    subst hp2
    simp [destroyLoop, freeAll]
  | cons x xs ih =>
    intro q p hnd hp hc
    obtain ⟨hs, hp2⟩ := hp
    obtain ⟨hx, hnd2⟩ := List.nodup_cons.1 hnd
    obtain ⟨e, he⟩ := hc x (List.mem_cons_self _ _)
    have hnx : nextOf q.heap x = e.next := by unfold nextOf; rw [he]; rfl
    have hne : ∀ a ∈ xs, x ≠ a := fun a ha h => hx (h ▸ ha)
    have hstep := ih { q with storage := e.next, heap := q.heap.set x none,
                              scount := q.scount - 1 } p hnd2
      (by
        show Path (nextOf (q.heap.set x none)) e.next xs p
        rw [← hnx]
        refine Path_congr ?_ hp2
        intro a ha
        unfold nextOf
        rw [cell_set_none_ne (hne a ha)])
      (by
        intro a ha
        show ∃ e, cell (q.heap.set x none) a = some e
        rw [cell_set_none_ne (hne a ha)]
        exact hc a (List.mem_cons_of_mem _ ha))
    rw [List.length_cons, destroyLoop]
    simp only [hs, Option.bind_eq_bind, Option.some_bind, he]
    rw [hstep]
    simp only [Option.some.injEq]
    have h1 : q.scount - 1 - (xs.length : Int) = q.scount - ((xs.length + 1 : Nat) : Int) := by
      push_cast; ring
    rw [h1]
    rfl

/-- C17 (ring shape): in every reachable state with `scount ≥ 1` there is a list
`ring` of `scount` distinct allocated slots, starting at `storage`, in which each
slot links to the next one and the last one back to `storage`, and which
contains `front` and `rear`; following `next` from `storage` for `scount` steps
visits exactly these slots, each once, and `circular_queue_destroy`, which walks
the ring this way, returns after releasing each of them once. -/
theorem C17_ring_shape (q : circular_queue_t) (hq : Reachable q) (hS : 1 ≤ q.scount) :
    ∃ (s : Nat) (ring : List Nat), q.storage = some s ∧ ring.head? = some s ∧
      ring.Nodup ∧ (ring.length : Int) = q.scount ∧
      Path (nextOf q.heap) (some s) ring (some s) ∧
      (∀ a ∈ ring, ∃ e, cell q.heap a = some e) ∧
      (∃ f, q.front = some f ∧ f ∈ ring) ∧ (∃ z, q.rear = some z ∧ z ∈ ring) ∧
      walk q.heap q.scount.toNat q.storage = ring ∧
      ∃ q2, circular_queue_destroy q = some (0, q2) ∧ q2.heap = freeAll q.heap ring ∧
        (∀ a ∈ ring, cell q2.heap a = none) ∧
        (∀ a, a ∉ ring → cell q2.heap a = cell q.heap a) ∧
        q2.scount = 0 ∧ q2.storage = none := by
  obtain ⟨live, spare, hI⟩ := Reachable_Inv hq
  have hne : live ++ spare ≠ [] := by
    intro h0
    have := hI.scount
    rw [h0] at this
    simp at this
    omega
  obtain ⟨s, hs, hmem⟩ := hI.storage hne
  obtain ⟨pre, post, hring, hcyc⟩ := Path_rotate_to hI.path hmem
  have hperm : (live ++ spare).Perm (s :: post ++ pre) := by
    rw [hring]
    exact List.perm_append_comm
  have hnd : (s :: post ++ pre).Nodup := hI.nodup.perm hperm
  have hlen : ((s :: post ++ pre).length : Int) = q.scount := by
    rw [hI.scount, hperm.length_eq]
  have hcells : ∀ a ∈ s :: post ++ pre, ∃ e, cell q.heap a = some e := by
    intro a ha
    obtain ⟨e, he, _⟩ := hI.slots a (hperm.mem_iff.2 ha)
    exact ⟨e, he⟩
  have hfront : ∃ f, q.front = some f ∧ f ∈ s :: post ++ pre := by
    cases hl : live ++ spare with
    | nil => exact absurd hl hne
    | cons f rest =>
      have hp := hI.path
      rw [hl] at hp
      refine ⟨f, hp.1, hperm.mem_iff.1 ?_⟩
      rw [hl]
      exact List.mem_cons_self _ _
  have hrear : ∃ z, q.rear = some z ∧ z ∈ s :: post ++ pre := by
    have hne2 : spare ++ live ≠ [] := by
      intro h0
      apply hne
      have := List.append_eq_nil.1 h0
      rw [this.1, this.2]
      rfl
    cases hl : (spare ++ live).getLast? with
    | none => exact absurd (List.getLast?_eq_none_iff.1 hl) hne2
    | some z =>
      refine ⟨z, hI.rear.trans hl, hperm.mem_iff.1 ?_⟩
      have := List.mem_of_getLast?_eq_some hl
      simp only [List.mem_append] at this ⊢
      tauto
  have hn : q.scount.toNat = (s :: post ++ pre).length := by omega
  have hdl := destroyLoop_spec (s :: post ++ pre) q (some s) hnd (by rw [hs]; exact hcyc) hcells
  refine ⟨s, s :: post ++ pre, hs, rfl, hnd, hlen, hcyc, hcells, hfront, hrear, ?_, ?_⟩
  · rw [hn, hs]
    exact walk_of_Path hcyc
  · obtain ⟨q2, hd, hheap, hsc, hst⟩ : ∃ q2, circular_queue_destroy q = some (0, q2) ∧
        q2.heap = freeAll q.heap (s :: post ++ pre) ∧ q2.scount = 0 ∧ q2.storage = none := by
      unfold circular_queue_destroy
      rw [hn, hdl]
      refine ⟨_, rfl, rfl, ?_, rfl⟩
      show q.scount - ((s :: post ++ pre).length : Int) = 0
      omega
    refine ⟨q2, hd, hheap, ?_, ?_, hsc, hst⟩
    · intro a ha
      rw [hheap]
      exact cell_freeAll_mem hnd ha
    · intro a ha
      rw [hheap]
      exact cell_freeAll_not_mem ha

theorem C17_ring_shape_witness :
    ∃ (s : Nat) (ring : List Nat), threeQueue.storage = some s ∧ ring.head? = some s ∧
      ring.Nodup ∧ (ring.length : Int) = threeQueue.scount ∧
      Path (nextOf threeQueue.heap) (some s) ring (some s) ∧
      (∀ a ∈ ring, ∃ e, cell threeQueue.heap a = some e) ∧
      (∃ f, threeQueue.front = some f ∧ f ∈ ring) ∧
      (∃ z, threeQueue.rear = some z ∧ z ∈ ring) ∧
      walk threeQueue.heap threeQueue.scount.toNat threeQueue.storage = ring ∧
      ∃ q2, circular_queue_destroy threeQueue = some (0, q2) ∧
        q2.heap = freeAll threeQueue.heap ring ∧
        (∀ a ∈ ring, cell q2.heap a = none) ∧
        (∀ a, a ∉ ring → cell q2.heap a = cell threeQueue.heap a) ∧
        q2.scount = 0 ∧ q2.storage = none :=
  C17_ring_shape threeQueue threeQueue_reachable (by decide)

/-- Outside the allocating branch an offer writes no `next` field. -/
theorem offer_keeps_links {m : Malloc} {q : circular_queue_t} {value : List Byte}
    {length : Nat} {r : Int × circular_queue_t}
    (hb : q.ecount < q.scount ∨ ¬ q.ecount < q.capacity)
    (h : circular_queue_offer m q value length = some r) :
    nextOf r.2.heap = nextOf q.heap := by
  unfold circular_queue_offer at h
  split at h
  · simp only [Option.some.injEq] at h
    subst h; rfl
  · split at h
    · simp only [Option.some.injEq] at h
      subst h; rfl
    · split at h
      · simp only [Option.bind_eq_bind, Option.bind_eq_some, Option.some.injEq] at h
        obtain ⟨_, _, p, _, n, hn, v, _, h⟩ := h
        subst h
        exact nextOf_store hn rfl
      · rename_i hnlt
        have hcap : ¬ q.ecount < q.capacity := by
          rcases hb with hb | hb
          · exact absurd hb hnlt
          · exact hb
        rw [if_neg hcap] at h
        simp only [Option.bind_eq_bind, Option.bind_eq_some, Option.some.injEq] at h
        obtain ⟨_, _, p, _, n, hn, v, _, _, _, h⟩ := h
        subst h
        exact nextOf_store hn rfl

/-- C18 (three-way insert policy): from every reachable state, an offer of an
element of a length between 1 and `elementsize` whose allocations succeed
returns 0 and: if `ecount < scount`, `ecount` grows by one and `scount` is
unchanged; otherwise, if `scount < capacity`, both grow by one; otherwise
`ecount = scount = capacity`, both are unchanged, the new `rear` is the old
`front`, which is the slot after the old `rear`, and the new `front` is the slot
after the old `front`.  Where `ecount < scount` fails, the test
`ecount < capacity` of the code agrees with `scount < capacity`. -/
theorem C18_insert_policy (q : circular_queue_t) (hq : Reachable q) (m : Malloc)
    (hm : m.space ≠ none ∧ m.element = true) (value : List Byte) (length : Nat)
    (h1 : 1 ≤ length) (h2 : length ≤ q.elementsize) (h3 : length ≤ value.length) :
    ∃ r, circular_queue_offer m q value length = some r ∧ r.1 = 0 ∧
      (q.ecount < q.scount → r.2.ecount = q.ecount + 1 ∧ r.2.scount = q.scount) ∧
      (¬ q.ecount < q.scount → q.scount < q.capacity →
        r.2.ecount = q.ecount + 1 ∧ r.2.scount = q.scount + 1) ∧
      (¬ q.ecount < q.scount → ¬ q.scount < q.capacity →
        q.ecount = q.capacity ∧ q.scount = q.capacity ∧
        r.2.ecount = q.ecount ∧ r.2.scount = q.scount ∧
        r.2.rear = q.front ∧ r.2.rear = (load q.heap q.rear).bind (fun e => e.next) ∧
        r.2.front = (load q.heap q.front).bind (fun e => e.next)) ∧
      (¬ q.ecount < q.scount → (q.ecount < q.capacity ↔ q.scount < q.capacity)) := by
  obtain ⟨live, spare, hI⟩ := Reachable_Inv hq
  have hec := hI.ecount
  have hsc := hI.scount
  have hcap := hI.cap
  have hcp := hI.cap_pos
  cases spare with
  | cons y sp =>
    obtain ⟨q2, ho, hI2, _, _, _, _, hs2, _⟩ := offer_reuse m hI h1 h2 h3
    have hlt : q.ecount < q.scount := by rw [hec, hsc]; simp
    refine ⟨_, ho, rfl, ?_, fun h => absurd hlt h, fun h => absurd hlt h,
      fun h => absurd hlt h⟩
    intro _
    refine ⟨?_, hs2⟩
    show q2.ecount = _
    rw [hI2.ecount, hec]
    simp
  | nil =>
    simp only [List.append_nil] at hsc
    have heq : q.ecount = q.scount := by rw [hec, hsc]
    have hnlt : ¬ q.ecount < q.scount := by omega
    by_cases hlt : q.ecount < q.capacity
    · obtain ⟨junk, hs⟩ : ∃ junk, m.space = some junk := by
        cases h : m.space with
        | none => exact absurd h hm.1
        | some j => exact ⟨j, rfl⟩
      obtain ⟨q2, ho, _, _, _, _, _, hs2, _, he2⟩ := offer_alloc hI hlt hs hm.2 h1 h2 h3
      refine ⟨_, ho, rfl, fun h => absurd h hnlt, fun _ _ => ⟨he2, hs2⟩, ?_, ?_⟩
      · intro _ h
        exact absurd (by omega : q.scount < q.capacity) h
      · intro _
        rw [heq]
    · cases live with
      | nil =>
        exfalso
        simp only [List.length_nil] at hec
        omega
      | cons x l =>
        obtain ⟨q2, ho, hI2, _, _, _, _, hs2, _, _, he2⟩ :=
          offer_overwrite m hI hlt h1 h2 h3
        have hfront : q.front = some x := hI.path.1
        obtain ⟨z, rz, hrear, hrz, hrn, _⟩ := hI.rear_next (w := x) (by simp)
        have hlinks := offer_keeps_links (Or.inr hlt) ho
        have hrear2 : q2.rear = some x := by
          have := hI2.rear
          simpa using this
        have hfront2 : q2.front = nextOf q.heap x := by
          have hp := hI2.path
          rw [List.append_nil] at hp
          have := Path_last hp
          rw [← this]
          exact congrFun hlinks x
        refine ⟨_, ho, rfl, fun h => absurd h hnlt, ?_, ?_, ?_⟩
        · intro _ h
          exact absurd (by omega : q.ecount < q.capacity) hlt
        · intro _ _
          refine ⟨by omega, by omega, he2, hs2, ?_, ?_, ?_⟩
          · show q2.rear = _
            rw [hrear2, hfront]
          · show q2.rear = _
            rw [hrear2, hrear]
            show some x = (cell q.heap z).bind _
            rw [hrz]
            exact hrn.symm
          · show q2.front = _
            rw [hfront2, hfront]
            rfl
        · intro _
          rw [heq]

theorem fullQueue_reachable : Reachable fullQueue :=
  afterOffer_reachable (afterOffer_reachable (Reachable.configured smallQueue_configured) _) _

theorem C18_insert_policy_witness :
    ∃ r, circular_queue_offer mallocOk fullQueue [3, 3, 3] 3 = some r ∧ r.1 = 0 ∧
      (fullQueue.ecount < fullQueue.scount →
        r.2.ecount = fullQueue.ecount + 1 ∧ r.2.scount = fullQueue.scount) ∧
      (¬ fullQueue.ecount < fullQueue.scount → fullQueue.scount < fullQueue.capacity →
        r.2.ecount = fullQueue.ecount + 1 ∧ r.2.scount = fullQueue.scount + 1) ∧
      (¬ fullQueue.ecount < fullQueue.scount → ¬ fullQueue.scount < fullQueue.capacity →
        fullQueue.ecount = fullQueue.capacity ∧ fullQueue.scount = fullQueue.capacity ∧
        r.2.ecount = fullQueue.ecount ∧ r.2.scount = fullQueue.scount ∧
        r.2.rear = fullQueue.front ∧
        r.2.rear = (load fullQueue.heap fullQueue.rear).bind (fun e => e.next) ∧
        r.2.front = (load fullQueue.heap fullQueue.front).bind (fun e => e.next)) ∧
      (¬ fullQueue.ecount < fullQueue.scount →
        (fullQueue.ecount < fullQueue.capacity ↔ fullQueue.scount < fullQueue.capacity)) :=
  C18_insert_policy fullQueue fullQueue_reachable mallocOk ⟨by simp [mallocOk], rfl⟩
    [3, 3, 3] 3 (by decide) (by decide) (by decide)

theorem Inv.entries_eq {q : circular_queue_t} {live spare : List Nat} (hI : Inv q live spare) :
    entries q = (contents q).map fun b => (b, b.length) := by
  unfold entries
  rw [hI.contents_eq, hI.liveSlots_eq, List.map_map]
  apply List.map_congr_left
  intro a ha
  obtain ⟨e, he, hel⟩ := hI.slots a (List.mem_append_left _ ha)
  have hl := hI.lens a ha e he
  have hb := bytesAt_length he (by omega)
  show (bytesAt q.heap a, lengthAt q.heap a) = (bytesAt q.heap a, (bytesAt q.heap a).length)
  rw [hb]
  unfold lengthAt
  rw [he]

theorem specOffer_map {α β : Type} (f : α → β) (cap : Nat) (c : List α) (v : α) :
    (specOffer cap c v).map f = specOffer cap (c.map f) (f v) := by
  unfold specOffer
  rw [List.map_drop]
  simp

theorem specBucket_map {α β : Type} (f : α → β) (K : Nat) (c : List α) :
    (specBucket K (c.map f)).1 = (specBucket K c).1.map f ∧
      (specBucket K (c.map f)).2 = (specBucket K c).2.map f := by
  unfold specBucket
  simp [List.map_take, List.map_drop]

/-- C19 (the ring refines a bounded FIFO list): in every reachable state the
entries read from `front` along `next` for `ecount` steps are the queued byte
strings with their lengths; an offer of `v` with `1 ≤ len v ≤ elementsize`
returns, and when it returns 0 the entries afterwards are the last `capacity`
entries of the old ones followed by `v`; a bucket call with a count `K ≥ 0` and
a per-buffer capacity of at least `elementsize` returns, hands out the first
`min K (number of entries)` entries, bytes zero-padded in the destination
buffers and lengths in `asize`, and leaves the entries without that prefix. -/
theorem C19_refines_bounded_fifo (q : circular_queue_t) (hq : Reachable q) :
    entries q = (contents q).map (fun b => (b, b.length)) ∧
    (∀ (m : Malloc) (v : List Byte), 1 ≤ v.length → v.length ≤ q.elementsize →
      ∃ r, circular_queue_offer m q v v.length = some r ∧
        (r.1 = 0 →
          entries r.2 = specOffer q.capacity.toNat (entries q) (v, v.length) ∧
          contents r.2 = specOffer q.capacity.toNat (contents q) v)) ∧
    (∀ (buffer : List (List Byte)) (K : Nat) (size : Nat) (acount : Option Int)
        (asize : Option (List Nat)), q.elementsize ≤ size →
        DestOk buffer (K : Int) size asize →
      ∃ r, circular_queue_bucket q buffer (K : Int) size acount asize = some r ∧
        r.buffer = (specBucket K (contents q)).1.map (pad size) ++
          buffer.drop (min K (contents q).length) ∧
        r.asize = asize.map (fun a =>
          (specBucket K (entries q)).1.map (fun e => e.2) ++
            a.drop (min K (contents q).length)) ∧
        entries r.queue = (specBucket K (entries q)).2 ∧
        contents r.queue = (specBucket K (contents q)).2) := by
  obtain ⟨live, spare, hI⟩ := Reachable_Inv hq
  refine ⟨hI.entries_eq, ?_, ?_⟩
  · intro m v h1 h2
    obtain ⟨r, ho, hcase⟩ := offer_ok m hI h1 h2 (Nat.le_refl _)
    refine ⟨r, ho, ?_⟩
    intro h0
    rcases hcase with ⟨hc, _⟩ | ⟨_, live2, spare2, hI2, hcont, _⟩
    · rw [hc] at h0
      exact absurd h0 (by decide)
    · have hc2 : contents r.2 = specOffer q.capacity.toNat (contents q) v := by
        rw [hI2.contents_eq, hcont, ← hI.contents_eq, List.take_length]
        unfold specOffer
        have : (contents q).length = live.length := by
          rw [hI.contents_eq, List.length_map]
        rw [List.length_append, List.length_singleton, this]
      refine ⟨?_, hc2⟩
      rw [hI2.entries_eq, hc2, specOffer_map, ← hI.entries_eq]
  · intro buffer K size acount asize hsize hd
    have hlen := hI.contents_length
    have hsb := specBucket_map (fun b : List Byte => (b, b.length)) K (contents q)
    rw [← hI.entries_eq] at hsb
    by_cases hE : q.ecount ≤ 0
    · have hc0 : contents q = [] := List.length_eq_zero.1 (by omega)
      have he0 : entries q = [] := by rw [hI.entries_eq, hc0]; rfl
      refine ⟨_, bucket_empty hsize hE buffer K acount asize, ?_, ?_, ?_, ?_⟩
      · show buffer = _
        rw [hc0]
        simp [specBucket]
      · show asize = _
        rw [hc0, he0]
        cases asize <;> simp [specBucket]
      · show entries q = _
        rw [he0]
        simp [specBucket]
      · show contents q = _
        rw [hc0]
        simp [specBucket]
    · have hn : min K (contents q).length =
          (if (K : Int) < q.ecount then (K : Int) else q.ecount).toNat := by
        split <;> omega
      obtain ⟨r, hr, _, hbuf, _, has, hcr, _, _, live2, spare2, hI2⟩ :=
        bucket_contents hI hsize (by omega) acount hd _ hn
      have hcr2 : contents r.queue = (specBucket K (contents q)).2 := hcr
      refine ⟨r, hr, hbuf, ?_, ?_, hcr2⟩
      · rw [has, hsb.1, List.map_map]
        rfl
      · rw [hI2.entries_eq, hcr2, hsb.2]

theorem C19_refines_bounded_fifo_witness :
    entries fullQueue = (contents fullQueue).map (fun b => (b, b.length)) ∧
    (∃ r, circular_queue_offer mallocOk fullQueue [3, 3, 3] [3, 3, 3].length = some r ∧
      (r.1 = 0 →
        entries r.2 = specOffer fullQueue.capacity.toNat (entries fullQueue)
          ([3, 3, 3], [3, 3, 3].length) ∧
        contents r.2 = specOffer fullQueue.capacity.toNat (contents fullQueue) [3, 3, 3])) ∧
    (∃ r, circular_queue_bucket fullQueue [[9, 9, 9], [9, 9, 9], [9, 9, 9]] ((3 : Nat) : Int) 3
        (some 7) (some [0, 0, 0]) = some r ∧
      r.buffer = (specBucket 3 (contents fullQueue)).1.map (pad 3) ++
        [[9, 9, 9], [9, 9, 9], [9, 9, 9]].drop (min 3 (contents fullQueue).length) ∧
      r.asize = (some [0, 0, 0]).map (fun a =>
        (specBucket 3 (entries fullQueue)).1.map (fun e => e.2) ++
          a.drop (min 3 (contents fullQueue).length)) ∧
      entries r.queue = (specBucket 3 (entries fullQueue)).2 ∧
      contents r.queue = (specBucket 3 (contents fullQueue)).2) :=
  ⟨(C19_refines_bounded_fifo fullQueue fullQueue_reachable).1,
   (C19_refines_bounded_fifo fullQueue fullQueue_reachable).2.1 mallocOk [3, 3, 3]
     (by decide) (by decide),
   (C19_refines_bounded_fifo fullQueue fullQueue_reachable).2.2
     [[9, 9, 9], [9, 9, 9], [9, 9, 9]] 3 3 (some 7) (some [0, 0, 0]) (by decide)
     ⟨by decide, by decide, by decide⟩⟩

/-- C20 (pointer safety): in every reachable state no call of offer, bucket or
poll is undefined when the caller passes an element of at least `length` bytes
and the destinations the call asks for, so every dereference of `front`,
`rear`, `rear->next` and `front->next` made on the way is of an allocated slot;
in the reuse and overwrite branches `rear` and `rear->next` are allocated slots,
with elements queued so is `front`, and when `ecount = 0` with `scount ≥ 1` the
slot `rear->next` that an offer writes is `front`. -/
theorem C20_pointer_safety (q : circular_queue_t) (hq : Reachable q) :
    (∀ (m : Malloc) (value : List Byte) (length : Nat), length ≤ value.length →
      ∃ r, circular_queue_offer m q value length = some r) ∧
    (∀ (buffer : List (List Byte)) (count : Int) (size : Nat) (acount : Option Int)
        (asize : Option (List Nat)), DestOk buffer count size asize →
      ∃ r, circular_queue_bucket q buffer count size acount asize = some r) ∧
    (∀ (buffer : List Byte) (size : Nat), buffer.length = size →
      ∃ r, circular_queue_poll q buffer size = some r) ∧
    (q.ecount < q.scount ∨ ¬ q.ecount < q.capacity →
      ∃ z e p n, q.rear = some z ∧ cell q.heap z = some e ∧ e.next = some p ∧
        cell q.heap p = some n) ∧
    (0 < q.ecount →
      ∃ f e z d, q.front = some f ∧ cell q.heap f = some e ∧ q.rear = some z ∧
        cell q.heap z = some d) ∧
    (q.ecount = 0 → 1 ≤ q.scount →
      q.front ≠ none ∧ (load q.heap q.rear).bind (fun e => e.next) = q.front) := by
  obtain ⟨live, spare, hI⟩ := Reachable_Inv hq
  have hec := hI.ecount
  have hsc := hI.scount
  have hbucket : ∀ (buffer : List (List Byte)) (count : Int) (size : Nat)
      (acount : Option Int) (asize : Option (List Nat)), DestOk buffer count size asize →
      ∃ r, circular_queue_bucket q buffer count size acount asize = some r := by
    intro buffer count size acount asize hd
    by_cases hsize : q.elementsize ≤ size
    · exact bucket_returns hI acount hsize hd
    · exact ⟨_, by unfold circular_queue_bucket; rw [if_pos (not_le.1 hsize)]⟩
  have hring : 1 ≤ q.scount → ∃ w, (spare ++ live).head? = some w ∧
      (live ++ spare).head? = q.front ∧ q.front ≠ none := by
    intro hS
    have hne : live ++ spare ≠ [] := by
      intro h0
      rw [h0] at hsc
      simp at hsc
      omega
    have hf : (live ++ spare).head? = q.front ∧ q.front ≠ none := by
      cases hl : live ++ spare with
      | nil => exact absurd hl hne
      | cons f rest =>
        have hp := hI.path
        rw [hl] at hp
        rw [hp.1]
        exact ⟨rfl, by simp⟩
    cases hl : spare ++ live with
    | nil =>
      exfalso
      apply hne
      have := List.append_eq_nil.1 hl
      rw [this.1, this.2]
      rfl
    | cons w rest => exact ⟨w, rfl, hf⟩
  have hrearok : 1 ≤ q.scount → ∃ z e p n, q.rear = some z ∧ cell q.heap z = some e ∧
      e.next = some p ∧ cell q.heap p = some n := by
    intro hS
    obtain ⟨w, hw, _⟩ := hring hS
    obtain ⟨z, e, hz, he, hn, _⟩ := hI.rear_next hw
    have hwm : w ∈ live ++ spare := by
      have := List.mem_of_mem_head? hw
      simp only [List.mem_append] at this ⊢
      tauto
    obtain ⟨n, hcn, _⟩ := hI.slots w hwm
    exact ⟨z, e, w, n, hz, he, hn, hcn⟩
  refine ⟨fun m _ _ h3 => offer_returns hI m h3, hbucket, ?_, ?_, ?_, ?_⟩
  · intro buffer size hb
    have hd : DestOk [buffer] 1 size none :=
      ⟨by simp, by simpa using hb, fun a ha => by simp at ha⟩
    obtain ⟨r, hr⟩ := hbucket [buffer] 1 size none none hd
    exact ⟨_, by unfold circular_queue_poll; rw [hr]; rfl⟩
  · intro hb
    apply hrearok
    have := hI.cap_pos
    have := hI.cap
    simp only [List.length_append] at hsc
    rcases hb with hb | hb <;> omega
  · intro hE
    have hS : 1 ≤ q.scount := by
      simp only [List.length_append] at hsc
      omega
    obtain ⟨z, d, _, _, hz, hd, _, _⟩ := hrearok hS
    cases hl : live with
    | nil =>
      rw [hl] at hec
      simp at hec
      omega
    | cons f rest =>
      have hp := hI.path
      rw [hl] at hp
      obtain ⟨e, he, _⟩ := hI.slots f (by rw [hl]; simp)
      exact ⟨f, e, z, d, hp.1, he, hz, hd⟩
  · intro hE hS
    have hl : live = [] := List.length_eq_zero.1 (by omega)
    subst hl
    obtain ⟨w, hw, hf, hfn⟩ := hring hS
    obtain ⟨z, e, hz, he, hn, _⟩ := hI.rear_next hw
    refine ⟨hfn, ?_⟩
    rw [hz]
    show (cell q.heap z).bind _ = _
    rw [he]
    show e.next = _
    rw [hn, ← hf]
    simpa using hw.symm

theorem C20_pointer_safety_witness :
    (∃ r, circular_queue_offer mallocOk drainedQueue [5, 0] 2 = some r) ∧
    (∃ r, circular_queue_bucket threeQueue [List.replicate 20 9, List.replicate 20 9] 2 20
      (some 7) none = some r) ∧
    (∃ z e p n, fullQueue.rear = some z ∧ cell fullQueue.heap z = some e ∧
      e.next = some p ∧ cell fullQueue.heap p = some n) ∧
    (drainedQueue.front ≠ none ∧
      (load drainedQueue.heap drainedQueue.rear).bind (fun e => e.next) =
        drainedQueue.front) :=
  ⟨(C20_pointer_safety drainedQueue drainedQueue_reachable).1 mallocOk [5, 0] 2 (by decide),
   (C20_pointer_safety threeQueue threeQueue_reachable).2.1
     [List.replicate 20 9, List.replicate 20 9] 2 20 (some 7) none
     ⟨by decide, by decide, by decide⟩,
   (C20_pointer_safety fullQueue fullQueue_reachable).2.2.2.1 (Or.inr (by decide)),
   (C20_pointer_safety drainedQueue drainedQueue_reachable).2.2.2.2.2 (by decide)
     (by decide)⟩

/-- The reports of a bucket call that hold: from every reachable state a call
with a per-buffer capacity of at least `elementsize` returns the sum of the
lengths of the `n` elements it removes, `n` being the decrease of `ecount`,
between 0 and `ecount`; the actual count written is `n` when elements are
queued and the requested count is not negative. -/
theorem bucket_reports (q : circular_queue_t) (hq : Reachable q)
    (buffer : List (List Byte)) (count : Int) (size : Nat) (acount : Option Int)
    (asize : Option (List Nat)) (hsize : q.elementsize ≤ size)
    (hd : DestOk buffer count size asize) :
    ∃ (r : BucketResult) (n : Nat),
      circular_queue_bucket q buffer count size acount asize = some r ∧
      r.queue.ecount = q.ecount - (n : Int) ∧ (n : Int) ≤ q.ecount ∧
      r.ret = ((((entries q).take n).map fun e => e.2).sum : Nat) ∧
      (0 < q.ecount → 0 ≤ count → r.acount = acount.map (fun _ => (n : Int))) := by
  obtain ⟨live, spare, hI⟩ := Reachable_Inv hq
  have hec := hI.ecount
  by_cases hE : q.ecount ≤ 0
  · refine ⟨_, 0, bucket_empty hsize hE buffer count acount asize, by simp, by omega, ?_, ?_⟩
    · simp
    · intro h; omega
  · obtain ⟨r, hr, hret, _, hac, _, _, hecr, _⟩ :=
      bucket_contents hI hsize (by omega) acount hd _ rfl
    refine ⟨r, _, hr, hecr, ?_, ?_, ?_⟩
    · split <;> omega
    · rw [hret, hI.entries_eq, ← List.map_take, List.map_map]
      rfl
    · intro _ hc
      rw [hac]
      congr 1
      funext _
      split <;> omega

/-- C11 (what a bucket call reports, evaluated for a negative count): with three
elements queued and a requested count of -1 nothing is removed, yet the actual
count written is -1, which is neither the number 0 of removed elements nor a
number between 0 and `ecount`. -/
theorem C11_negative_count_reported :
    threeQueue.ecount = 3 ∧
      circular_queue_bucket threeQueue [] (-1) 20 (some 7) none =
        some { ret := 0, queue := threeQueue, buffer := [], acount := some (-1),
               asize := none } := by
  decide

/-- C21 (a zero return from poll is unambiguous): in every reachable state each
of the `ecount` slots from `front` is allocated and records a length between 1
and `elementsize`; hence a poll into a destination of `size ≥ elementsize` bytes
returns, returns 0 exactly when the buffer was empty, in which case it leaves
the queue as it was, and otherwise returns a value between 1 and `elementsize`
and lowers `ecount` by exactly one. -/
theorem C21_zero_return_unambiguous (q : circular_queue_t) (hq : Reachable q) :
    (∀ a ∈ liveSlots q, ∃ e, cell q.heap a = some e ∧ 1 ≤ e.length ∧
      e.length ≤ q.elementsize) ∧
    ((liveSlots q).length : Int) = q.ecount ∧
    (∀ e ∈ entries q, 1 ≤ e.2 ∧ e.2 ≤ q.elementsize) ∧
    (∀ (buffer : List Byte) (size : Nat), q.elementsize ≤ size → buffer.length = size →
      ∃ r, circular_queue_poll q buffer size = some r ∧
        (r.ret = 0 ↔ q.ecount = 0) ∧
        (q.ecount = 0 → r.queue = q) ∧
        (q.ecount ≠ 0 →
          1 ≤ r.ret ∧ r.ret ≤ (q.elementsize : Int) ∧ r.queue.ecount = q.ecount - 1)) := by
  obtain ⟨live, spare, hI⟩ := Reachable_Inv hq
  have hlive : ∀ a ∈ live, ∃ e, cell q.heap a = some e ∧ 1 ≤ e.length ∧
      e.length ≤ q.elementsize := by
    intro a ha
    obtain ⟨e, he, _⟩ := hI.slots a (List.mem_append_left _ ha)
    exact ⟨e, he, hI.lens a ha e he⟩
  refine ⟨?_, ?_, ?_, ?_⟩
  · rw [hI.liveSlots_eq]
    exact hlive
  · rw [hI.liveSlots_eq, hI.ecount]
  · intro e he
    unfold entries at he
    rw [hI.liveSlots_eq] at he
    obtain ⟨a, ha, hae⟩ := List.mem_map.1 he
    obtain ⟨c, hc, hl⟩ := hlive a ha
    rw [← hae]
    show 1 ≤ lengthAt q.heap a ∧ lengthAt q.heap a ≤ q.elementsize
    unfold lengthAt
    rw [hc]
    exact hl
  · intro buffer size hsize hb
    cases hl : live with
    | nil =>
      subst hl
      have hE : q.ecount = 0 := by simpa using hI.ecount
      have hp : circular_queue_poll q buffer size =
          some { ret := 0, queue := q, buffer := buffer } := by
        unfold circular_queue_poll
        rw [bucket_empty hsize (by omega)]
        rfl
      exact ⟨_, hp, ⟨fun _ => hE, fun _ => rfl⟩, fun _ => rfl, fun h => absurd hE h⟩
    | cons x l =>
      subst hl
      have hE : q.ecount ≠ 0 := by
        have := hI.ecount
        simp only [List.length_cons] at this
        omega
      obtain ⟨r, hr, hret, _, _, _, hec, _⟩ := poll_spec hI hsize hb
      obtain ⟨c, hc, h1, h2⟩ := hlive x (List.mem_cons_self _ _)
      obtain ⟨w, hw, hvl⟩ := hI.slots x (by simp)
      have hwc : w = c := Option.some.inj (hw.symm.trans hc)
      rw [hwc] at hvl
      have hlen : (bytesAt q.heap x).length = c.length :=
        bytesAt_length hc (by omega)
      rw [hlen] at hret
      refine ⟨r, hr, ⟨fun h => ?_, fun h => absurd h hE⟩, fun h => absurd h hE, fun _ => ?_⟩
      · rw [hret] at h
        omega
      · rw [hret]
        exact ⟨by omega, by omega, hec⟩

theorem C21_zero_return_unambiguous_witness :
    (∃ r, circular_queue_poll threeQueue (List.replicate 20 9) 20 = some r ∧
      (r.ret = 0 ↔ threeQueue.ecount = 0) ∧
      (threeQueue.ecount = 0 → r.queue = threeQueue) ∧
      (threeQueue.ecount ≠ 0 →
        1 ≤ r.ret ∧ r.ret ≤ (threeQueue.elementsize : Int) ∧
          r.queue.ecount = threeQueue.ecount - 1)) ∧
    (∃ r, circular_queue_poll drainedQueue (List.replicate 20 9) 20 = some r ∧
      (r.ret = 0 ↔ drainedQueue.ecount = 0) ∧
      (drainedQueue.ecount = 0 → r.queue = drainedQueue) ∧
      (drainedQueue.ecount ≠ 0 →
        1 ≤ r.ret ∧ r.ret ≤ (drainedQueue.elementsize : Int) ∧
          r.queue.ecount = drainedQueue.ecount - 1)) :=
  ⟨(C21_zero_return_unambiguous threeQueue threeQueue_reachable).2.2.2
     (List.replicate 20 9) 20 (by decide) (by decide),
   (C21_zero_return_unambiguous drainedQueue drainedQueue_reachable).2.2.2
     (List.replicate 20 9) 20 (by decide) (by decide)⟩

end CircularQueue
